import Mathlib

/-!
Verification of the advizer rebalancing engine against its specification.

The Python sources are embedded shallowly: the flattened holdings table is a
list of rows over exact rationals, the framing strategies and the portfolio
optimizer's objective, constraint and transaction-derivation code are
translated function by function, and the spec's properties are settled as
theorems about those translations.
-/

namespace Advizer

/-- Shallow embedding of investment.AssetClass (a closed enumeration). -/
inductive AssetClass where
  | MONEY_MARKET
  | INVESTMENT_GRADE_BONDS
  | HIGH_YIELD_BONDS
  | INFLATION_PROTECTED_BONDS
  | CORE_US
  | SMALL_CAP
  | MICRO_CAP
  | REAL_ESTATE
  | PACIFIC_RIM_LARGE
  | EUROPE_LARGE
  | INTERNATIONAL_SMALL_CAP_VALUE
  | EMERGING_MARKETS
  | CASH
  deriving DecidableEq, Repr

/-- One row of the flattened holdings table built by Portfolio._build_dataframe:
columns account_name, institution, fund_name, asset_class, ticker_symbol,
share_price, num_shares, value. -/
structure Row where
  account_name : String
  institution : String
  fund_name : String
  asset_class : AssetClass
  ticker_symbol : String
  share_price : ℚ
  num_shares : ℚ
  value : ℚ
  deriving DecidableEq, Repr

instance : Inhabited Row :=
  ⟨⟨"", "", "", AssetClass.CASH, "", 0, 0, 0⟩⟩

/-- The holdings table (pandas DataFrame with the default positional index). -/
abbrev Table := List Row

/-- framing._JITTER. -/
def _JITTER : ℚ := 1 / 10 ^ 10

/-- Row at positional label i (df.iloc[i] / df.loc[i]). -/
def rowAt (df : Table) (i : Nat) : Row := df.getD i default

/-- The positional labels of the rows of account acct
(df.loc[df.account_name == acct].index). -/
def acctIdx (df : Table) (acct : String) : List Nat :=
  (List.range df.length).filter (fun i => decide ((rowAt df i).account_name = acct))

/-- framing._get_cash: total value of the CASH-class holdings of one account. -/
def _get_cash (df : Table) (account_name : String) : ℚ :=
  ((df.filter (fun r =>
    decide (r.account_name = account_name ∧ r.asset_class = AssetClass.CASH))).map
    (fun r => r.value)).sum

/-! ### Generic list lemmas used throughout -/

theorem getD_set_self {α : Type} (b : List α) (i : Nat) (v d : α) (h : i < b.length) :
    (b.set i v).getD i d = v := by
  induction b generalizing i with
  | nil => simp at h
  | cons x xs ih =>
    cases i with
    | zero => rfl
    | succ j => exact ih j (by simpa using h)

theorem getD_set_ne {α : Type} (b : List α) (i j : Nat) (v d : α) (h : i ≠ j) :
    (b.set i v).getD j d = b.getD j d := by
  induction b generalizing i j with
  | nil => rfl
  | cons x xs ih =>
    cases i with
    | zero =>
      cases j with
      | zero => exact absurd rfl h
      | succ k => rfl
    | succ i2 =>
      cases j with
      | zero => rfl
      | succ k => exact ih i2 k (fun e => h (by rw [e]))

theorem getD_replicate {α : Type} (n i : Nat) (x d : α) :
    (List.replicate n x).getD i d = if i < n then x else d := by
  induction n generalizing i with
  | zero => simp
  | succ m ih =>
    cases i with
    | zero => simp [List.replicate]
    | succ j => simpa [List.replicate, Nat.succ_lt_succ_iff] using ih j

theorem getD_out_of_range {α : Type} (b : List α) (i : Nat) (d : α) (h : b.length ≤ i) :
    b.getD i d = d := by
  induction b generalizing i with
  | nil => rfl
  | cons x xs ih =>
    cases i with
    | zero => simp at h
    | succ j => exact ih j (by simpa using h)

/-- A left fold writing value v j at each index j of idxs: the result at index i is
v i when i is a touched in-range index, and the original entry otherwise. -/
theorem foldl_set_getD {α : Type} (idxs : List Nat) (v : Nat → α) (b : List α) (i : Nat)
    (d : α) :
    (idxs.foldl (fun acc j => acc.set j (v j)) b).getD i d =
      if i ∈ idxs ∧ i < b.length then v i else b.getD i d := by
  induction idxs generalizing b with
  | nil => simp
  | cons j rest ih =>
    show (rest.foldl (fun acc j => acc.set j (v j)) (b.set j (v j))).getD i d = _
    rw [ih (b.set j (v j))]
    by_cases hmem : i ∈ rest
    · by_cases hlen : i < b.length
      · rw [if_pos ⟨hmem, by simpa [List.length_set] using hlen⟩,
          if_pos ⟨List.mem_cons_of_mem j hmem, hlen⟩]
      · rw [if_neg (fun h => hlen (by simpa [List.length_set] using h.2)),
          if_neg (fun h => hlen h.2),
          getD_out_of_range _ _ _ (by simp [List.length_set]; omega),
          getD_out_of_range _ _ _ (by omega)]
    · rw [if_neg (fun h => hmem h.1)]
      by_cases hij : j = i
      · rw [hij]
        by_cases hlen : i < b.length
        · rw [getD_set_self b i _ _ hlen, if_pos ⟨List.mem_cons_self i rest, hlen⟩]
        · rw [if_neg (fun h => hlen h.2),
            getD_out_of_range _ _ _ (by simp [List.length_set]; omega),
            getD_out_of_range _ _ _ (by omega)]
      · rw [getD_set_ne b j i _ _ hij,
          if_neg (fun h => (List.mem_cons.mp h.1).elim (fun e => hij e.symm) hmem)]

theorem length_foldl_set {α : Type} (idxs : List Nat) (v : Nat → α) (b : List α) :
    (idxs.foldl (fun acc j => acc.set j (v j)) b).length = b.length := by
  induction idxs generalizing b with
  | nil => rfl
  | cons j rest ih =>
    show (rest.foldl (fun acc j => acc.set j (v j)) (b.set j (v j))).length = _
    rw [ih, List.length_set]

theorem mem_acctIdx (df : Table) (acct : String) (i : Nat) :
    i ∈ acctIdx df acct ↔ i < df.length ∧ (rowAt df i).account_name = acct := by
  simp [acctIdx, List.mem_filter, List.mem_range, and_comm]

/-- Total value of one account's rows (holdings.value.agg of the rows with
account_name == acct). -/
def accountValue (df : Table) (acct : String) : ℚ :=
  ((acctIdx df acct).map (fun i => (rowAt df i).value)).sum

/-! ### framing.RebalanceAllocationStrategy -/

/-- framing.RebalanceAllocationStrategy.initial_allocation: np.zeros(num_holdings). -/
def RebalanceAllocationStrategy.initial_allocation (df : Table) (_ : List String) :
    List ℚ :=
  List.replicate df.length 0

/-- Body of the per-account loop of framing.RebalanceAllocationStrategy.bounds. -/
def RebalanceAllocationStrategy.boundsStep (df : Table) (bounds : List (ℚ × ℚ))
    (acct : String) : List (ℚ × ℚ) :=
  let holdings := acctIdx df acct
  let account_value := accountValue df acct
  if holdings.length ≤ 1 then bounds
  else holdings.foldl (fun b i =>
    b.set i (-(rowAt df i).num_shares,
      (account_value - (rowAt df i).value) / (rowAt df i).share_price)) bounds

/-- framing.RebalanceAllocationStrategy.bounds. -/
def RebalanceAllocationStrategy.bounds (df : Table) (accounts : List String) :
    List (ℚ × ℚ) :=
  accounts.foldl (RebalanceAllocationStrategy.boundsStep df)
    (List.replicate df.length (0, _JITTER))

theorem length_rebalance_boundsStep (df : Table) (b : List (ℚ × ℚ)) (acct : String) :
    (RebalanceAllocationStrategy.boundsStep df b acct).length = b.length := by
  unfold RebalanceAllocationStrategy.boundsStep
  by_cases h : (acctIdx df acct).length ≤ 1
  · simp [h]
  · simp only [h, if_false]
    exact length_foldl_set _ _ _

/-- Pointwise pin-down of the bound written for the rows of a given account by the
rebalance strategy. -/
def rebalanceBoundAt (df : Table) (i : Nat) : ℚ × ℚ :=
  if (acctIdx df (rowAt df i).account_name).length ≤ 1 then (0, _JITTER)
  else (-(rowAt df i).num_shares,
    (accountValue df (rowAt df i).account_name - (rowAt df i).value) /
      (rowAt df i).share_price)

theorem rebalance_boundsStep_getD_ne (df : Table) (b : List (ℚ × ℚ)) (acct : String)
    (i : Nat) (d : ℚ × ℚ) (hne : (rowAt df i).account_name ≠ acct) :
    (RebalanceAllocationStrategy.boundsStep df b acct).getD i d = b.getD i d := by
  unfold RebalanceAllocationStrategy.boundsStep
  by_cases h : (acctIdx df acct).length ≤ 1
  · simp [h]
  · simp only [h, if_false]
    rw [foldl_set_getD, if_neg]
    rintro ⟨hmem, -⟩
    exact hne ((mem_acctIdx df acct i).mp hmem).2

theorem rebalance_boundsStep_getD_eq (df : Table) (b : List (ℚ × ℚ)) (acct : String)
    (i : Nat) (d : ℚ × ℚ) (hi : i < df.length) (hlen : b.length = df.length)
    (heq : (rowAt df i).account_name = acct) :
    (RebalanceAllocationStrategy.boundsStep df b acct).getD i d =
      if (acctIdx df acct).length ≤ 1 then b.getD i d else rebalanceBoundAt df i := by
  unfold RebalanceAllocationStrategy.boundsStep
  by_cases h : (acctIdx df acct).length ≤ 1
  · simp [h]
  · simp only [h, if_false]
    rw [foldl_set_getD,
      if_pos ⟨(mem_acctIdx df acct i).mpr ⟨hi, heq⟩, by rw [hlen]; exact hi⟩,
      rebalanceBoundAt, heq, if_neg h]

theorem rebalance_bounds_go (df : Table) (as : List String) (b : List (ℚ × ℚ))
    (S : List String) (d : ℚ × ℚ) (hlen : b.length = df.length)
    (hS : ∀ i, i < df.length → b.getD i d =
      if (rowAt df i).account_name ∈ S then rebalanceBoundAt df i else (0, _JITTER)) :
    ∀ i, i < df.length →
      (as.foldl (RebalanceAllocationStrategy.boundsStep df) b).getD i d =
        if (rowAt df i).account_name ∈ S ∨ (rowAt df i).account_name ∈ as then
          rebalanceBoundAt df i
        else (0, _JITTER) := by
  induction as generalizing b S with
  | nil =>
    intro i hi
    rw [List.foldl_nil, hS i hi]
    exact if_congr (by simp) rfl rfl
  | cons a rest ih =>
    intro i hi
    rw [List.foldl_cons]
    have hres := ih (RebalanceAllocationStrategy.boundsStep df b a) (a :: S)
      (by rw [length_rebalance_boundsStep, hlen])
      (fun k hk => by
        by_cases hk2 : (rowAt df k).account_name = a
        · rw [rebalance_boundsStep_getD_eq df b a k d hk hlen hk2]
          have hmem : (rowAt df k).account_name ∈ a :: S := by
            rw [hk2]; exact List.mem_cons_self a S
          by_cases h1 : (acctIdx df a).length ≤ 1
          · have hA : rebalanceBoundAt df k = (0, _JITTER) := by
              rw [rebalanceBoundAt, hk2]; exact if_pos h1
            rw [if_pos h1, hS k hk, hA, if_pos hmem, ite_self]
          · rw [if_neg h1, if_pos hmem]
        · rw [rebalance_boundsStep_getD_ne df b a k d hk2, hS k hk]
          exact if_congr (by simp [List.mem_cons, hk2]) rfl rfl) i hi
    rw [hres]
    exact if_congr (by simp [List.mem_cons]; tauto) rfl rfl

/-- Full pointwise characterization of RebalanceAllocationStrategy.bounds. -/
theorem rebalance_bounds_getD (df : Table) (accounts : List String) (i : Nat)
    (d : ℚ × ℚ) (hi : i < df.length) :
    (RebalanceAllocationStrategy.bounds df accounts).getD i d =
      if (rowAt df i).account_name ∈ accounts then rebalanceBoundAt df i
      else (0, _JITTER) := by
  unfold RebalanceAllocationStrategy.bounds
  rw [rebalance_bounds_go df accounts (List.replicate df.length (0, _JITTER)) [] d
    (List.length_replicate _ _)
    (fun k hk => by rw [getD_replicate, if_pos hk]; simp) i hi]
  exact if_congr (by simp) rfl rfl

theorem length_foldl_rebalance_boundsStep (df : Table) (as : List String)
    (b : List (ℚ × ℚ)) :
    (as.foldl (RebalanceAllocationStrategy.boundsStep df) b).length = b.length := by
  induction as generalizing b with
  | nil => rfl
  | cons a rest ih =>
    rw [List.foldl_cons, ih, length_rebalance_boundsStep]

theorem length_rebalance_bounds (df : Table) (accounts : List String) :
    (RebalanceAllocationStrategy.bounds df accounts).length = df.length := by
  unfold RebalanceAllocationStrategy.bounds
  rw [length_foldl_rebalance_boundsStep, List.length_replicate]

/-- Sample holdings table (from the framing and portfolio tests): a taxable account
with three holdings including a cash position, and a non-taxable account with one
holding. -/
def sampleDf : Table :=
  [⟨"Joint WROS", "Fidelity", "Small Cap Value Fund Class Institutional",
     AssetClass.SMALL_CAP, "CRISX", 10, 500, 5000⟩,
   ⟨"Joint WROS", "Fidelity", "Fidelity Total Market Index",
     AssetClass.CORE_US, "FSKAX", 10, 1000, 10000⟩,
   ⟨"Joint WROS", "Fidelity", "Money Market", AssetClass.CASH, "CASH", 1, 5000, 5000⟩,
   ⟨"INDIVIDUAL IRA", "Vanguard", "Vanguard Real Estate Index Fund",
     AssetClass.REAL_ESTATE, "VNQ", 10, 2000, 20000⟩]

/-- The sample table extended with a second holding in the non-taxable account. -/
def sampleDf5 : Table :=
  sampleDf ++ [⟨"INDIVIDUAL IRA", "Vanguard", "Vanguard Emerging Markets Index Fund",
    AssetClass.EMERGING_MARKETS, "VWD", 10, 1000, 10000⟩]

/-- C4: for every holdings table and participating-account set,
RebalanceAllocationStrategy.initial_allocation is the all-zero vector of full table
length, and bounds gives every holding of a participating account with at most one
holding the degenerate (0, ε) interval and every other participating holding the
interval (-current_shares, (account_total_value - this_holding_value) / share_price). -/
theorem claim_C4 (df : Table) (accounts : List String) (i : Nat)
    (hi : i < df.length) (hp : (rowAt df i).account_name ∈ accounts) :
    RebalanceAllocationStrategy.initial_allocation df accounts =
      List.replicate df.length 0 ∧
    (RebalanceAllocationStrategy.bounds df accounts).length = df.length ∧
    (RebalanceAllocationStrategy.bounds df accounts).getD i (0, 0) =
      (if (acctIdx df (rowAt df i).account_name).length ≤ 1 then (0, _JITTER)
       else (-(rowAt df i).num_shares,
         (accountValue df (rowAt df i).account_name - (rowAt df i).value) /
           (rowAt df i).share_price)) := by
  refine ⟨rfl, length_rebalance_bounds df accounts, ?_⟩
  rw [rebalance_bounds_getD df accounts i (0, 0) hi, if_pos hp, rebalanceBoundAt]

/-- Witness for C4 on the sample table: the first IRA holding (2000 shares at 10 in a
30000-value two-holding account) is bounded by (-2000, (30000 - 20000) / 10). -/
theorem claim_C4_witness :
    (RebalanceAllocationStrategy.bounds sampleDf5 ["INDIVIDUAL IRA"]).getD 3 (0, 0) =
      (-2000, 1000) := by
  have h := claim_C4 sampleDf5 ["INDIVIDUAL IRA"] 3 (by decide)
    (by decide)
  rw [h.2.2, if_neg (by decide)]
  have h3 : rowAt sampleDf5 3 =
      ⟨"INDIVIDUAL IRA", "Vanguard", "Vanguard Real Estate Index Fund",
        AssetClass.REAL_ESTATE, "VNQ", 10, 2000, 20000⟩ := rfl
  have h4 : rowAt sampleDf5 4 =
      ⟨"INDIVIDUAL IRA", "Vanguard", "Vanguard Emerging Markets Index Fund",
        AssetClass.EMERGING_MARKETS, "VWD", 10, 1000, 10000⟩ := rfl
  have hidx : acctIdx sampleDf5 (rowAt sampleDf5 3).account_name = [3, 4] := by decide
  rw [accountValue, hidx, List.map_cons, List.map_cons, List.map_nil, h3, h4]
  norm_num

/-! ### framing.CashAllocationStrategy -/

/-- The positional labels of the CASH-class rows of one account. -/
def cashIdx (df : Table) (acct : String) : List Nat :=
  (List.range df.length).filter (fun i =>
    decide ((rowAt df i).account_name = acct ∧
      (rowAt df i).asset_class = AssetClass.CASH))

/-- The positional labels of the non-CASH rows of one account. -/
def nonCashIdx (df : Table) (acct : String) : List Nat :=
  (List.range df.length).filter (fun i =>
    decide ((rowAt df i).account_name = acct ∧
      (rowAt df i).asset_class ≠ AssetClass.CASH))

/-- pandas Series.idxmax over the value column restricted to the given labels: the
first label attaining the maximum, and no value at all on an empty selection. -/
def idxmaxValue (df : Table) : List Nat → Option Nat
  | [] => none
  | i :: rest =>
    match idxmaxValue df rest with
    | none => some i
    | some j => if (rowAt df j).value > (rowAt df i).value then some j else some i

/-- Body of the per-account loop of framing.CashAllocationStrategy.initial_allocation.
The idxmax lookup on an account holding only cash raises in pandas, hence the Option
result. -/
def CashAllocationStrategy.initialStep (df : Table) (x0 : List ℚ) (acct : String) :
    Option (List ℚ) :=
  if 0 < _get_cash df acct then
    (idxmaxValue df (nonCashIdx df acct)).map (fun max_idx =>
      (cashIdx df acct).foldl (fun x i => x.set i (-(rowAt df i).value))
        (x0.set max_idx (_get_cash df acct / (rowAt df max_idx).share_price)))
  else some x0

/-- framing.CashAllocationStrategy.initial_allocation. -/
def CashAllocationStrategy.initial_allocation (df : Table) (accounts : List String) :
    Option (List ℚ) :=
  List.foldlM (CashAllocationStrategy.initialStep df) (List.replicate df.length 0)
    accounts

/-- Body of the per-account loop of framing.CashAllocationStrategy.bounds. -/
def CashAllocationStrategy.boundsStep (df : Table) (bounds : List (ℚ × ℚ))
    (acct : String) : List (ℚ × ℚ) :=
  (acctIdx df acct).foldl (fun b i =>
    b.set i (if (rowAt df i).asset_class = AssetClass.CASH then
        (-(rowAt df i).value, _JITTER - (rowAt df i).value)
      else (0, _get_cash df acct / (rowAt df i).share_price))) bounds

/-- framing.CashAllocationStrategy.bounds (note the (0, 0) fill for untouched rows). -/
def CashAllocationStrategy.bounds (df : Table) (accounts : List String) :
    List (ℚ × ℚ) :=
  accounts.foldl (CashAllocationStrategy.boundsStep df)
    (List.replicate df.length (0, 0))

theorem mem_cashIdx (df : Table) (acct : String) (i : Nat) :
    i ∈ cashIdx df acct ↔ i < df.length ∧ (rowAt df i).account_name = acct ∧
      (rowAt df i).asset_class = AssetClass.CASH := by
  simp [cashIdx, List.mem_filter, List.mem_range]

theorem mem_nonCashIdx (df : Table) (acct : String) (i : Nat) :
    i ∈ nonCashIdx df acct ↔ i < df.length ∧ (rowAt df i).account_name = acct ∧
      (rowAt df i).asset_class ≠ AssetClass.CASH := by
  simp [nonCashIdx, List.mem_filter, List.mem_range]

theorem idxmaxValue_cons_none (df : Table) (i : Nat) (rest : List Nat)
    (h : idxmaxValue df rest = none) :
    idxmaxValue df (i :: rest) = some i := by
  simp [idxmaxValue, h]

theorem idxmaxValue_cons_some (df : Table) (i : Nat) (rest : List Nat) (j : Nat)
    (h : idxmaxValue df rest = some j) :
    idxmaxValue df (i :: rest) =
      if (rowAt df j).value > (rowAt df i).value then some j else some i := by
  simp only [idxmaxValue, h]

theorem idxmaxValue_eq_none (df : Table) (l : List Nat) :
    idxmaxValue df l = none ↔ l = [] := by
  cases l with
  | nil => simp [idxmaxValue]
  | cons i rest =>
    constructor
    · intro h
      cases hrest : idxmaxValue df rest with
      | none =>
        rw [idxmaxValue_cons_none df i rest hrest] at h
        exact absurd h (by simp)
      | some j =>
        rw [idxmaxValue_cons_some df i rest j hrest] at h
        by_cases hv : (rowAt df j).value > (rowAt df i).value
        · rw [if_pos hv] at h
          exact absurd h (by simp)
        · rw [if_neg hv] at h
          exact absurd h (by simp)
    · intro h
      exact absurd h (by simp)

theorem idxmaxValue_mem (df : Table) (l : List Nat) (m : Nat)
    (h : idxmaxValue df l = some m) : m ∈ l := by
  induction l generalizing m with
  | nil => exact absurd h (by simp [idxmaxValue])
  | cons i rest ih =>
    cases hrest : idxmaxValue df rest with
    | none =>
      rw [idxmaxValue_cons_none df i rest hrest] at h
      injection h with h
      subst h
      exact List.mem_cons_self i rest
    | some j =>
      rw [idxmaxValue_cons_some df i rest j hrest] at h
      by_cases hv : (rowAt df j).value > (rowAt df i).value
      · rw [if_pos hv] at h
        injection h with h
        subst h
        exact List.mem_cons_of_mem i (ih _ hrest)
      · rw [if_neg hv] at h
        injection h with h
        subst h
        exact List.mem_cons_self i rest

/-- On a strictly ascending label list, idxmax returns the first label attaining the
maximal value: every value is at most the returned one, and every strictly earlier
label has a strictly smaller value. -/
theorem idxmaxValue_spec (df : Table) (l : List Nat) (hs : l.Pairwise (· < ·))
    (m : Nat) (h : idxmaxValue df l = some m) :
    m ∈ l ∧ (∀ j ∈ l, (rowAt df j).value ≤ (rowAt df m).value) ∧
      (∀ j ∈ l, j < m → (rowAt df j).value < (rowAt df m).value) := by
  induction l generalizing m with
  | nil => exact absurd h (by simp [idxmaxValue])
  | cons i rest ih =>
    obtain ⟨h1, h2⟩ := List.pairwise_cons.mp hs
    cases hrest : idxmaxValue df rest with
    | none =>
      rw [idxmaxValue_cons_none df i rest hrest] at h
      injection h with h
      subst h
      have hempty := (idxmaxValue_eq_none df rest).mp hrest
      subst hempty
      refine ⟨List.mem_cons_self i [], ?_, ?_⟩
      · intro j hj
        rcases List.mem_cons.mp hj with rfl | hj2
        · exact le_refl _
        · simp at hj2
      · intro j hj hjm
        rcases List.mem_cons.mp hj with rfl | hj2
        · omega
        · simp at hj2
    | some j0 =>
      rw [idxmaxValue_cons_some df i rest j0 hrest] at h
      obtain ⟨hmem0, hle0, hlt0⟩ := ih h2 j0 hrest
      by_cases hv : (rowAt df j0).value > (rowAt df i).value
      · rw [if_pos hv] at h
        injection h with h
        subst h
        refine ⟨List.mem_cons_of_mem i hmem0, ?_, ?_⟩
        · intro j hj
          rcases List.mem_cons.mp hj with rfl | hj2
          · exact le_of_lt hv
          · exact hle0 j hj2
        · intro j hj hjm
          rcases List.mem_cons.mp hj with rfl | hj2
          · exact hv
          · exact hlt0 j hj2 hjm
      · rw [if_neg hv] at h
        injection h with h
        subst h
        refine ⟨List.mem_cons_self i rest, ?_, ?_⟩
        · intro j hj
          rcases List.mem_cons.mp hj with rfl | hj2
          · exact le_refl _
          · exact le_trans (hle0 j hj2) (not_lt.mp hv)
        · intro j hj hjm
          rcases List.mem_cons.mp hj with rfl | hj2
          · omega
          · exact absurd hjm (by have := h1 j hj2; omega)


/-! ### Pointwise characterization of CashAllocationStrategy.bounds -/

/-- Bound written by the cash strategy for a row of a participating account. -/
def cashBoundAt (df : Table) (i : Nat) : ℚ × ℚ :=
  if (rowAt df i).asset_class = AssetClass.CASH then
    (-(rowAt df i).value, _JITTER - (rowAt df i).value)
  else (0, _get_cash df (rowAt df i).account_name / (rowAt df i).share_price)

theorem length_cash_boundsStep (df : Table) (b : List (ℚ × ℚ)) (acct : String) :
    (CashAllocationStrategy.boundsStep df b acct).length = b.length :=
  length_foldl_set _ _ _

theorem cash_boundsStep_getD_ne (df : Table) (b : List (ℚ × ℚ)) (acct : String)
    (i : Nat) (d : ℚ × ℚ) (hne : (rowAt df i).account_name ≠ acct) :
    (CashAllocationStrategy.boundsStep df b acct).getD i d = b.getD i d := by
  unfold CashAllocationStrategy.boundsStep
  rw [foldl_set_getD, if_neg]
  rintro ⟨hmem, -⟩
  exact hne ((mem_acctIdx df acct i).mp hmem).2

theorem cash_boundsStep_getD_eq (df : Table) (b : List (ℚ × ℚ)) (acct : String)
    (i : Nat) (d : ℚ × ℚ) (hi : i < df.length) (hlen : b.length = df.length)
    (heq : (rowAt df i).account_name = acct) :
    (CashAllocationStrategy.boundsStep df b acct).getD i d = cashBoundAt df i := by
  unfold CashAllocationStrategy.boundsStep
  rw [foldl_set_getD,
    if_pos ⟨(mem_acctIdx df acct i).mpr ⟨hi, heq⟩, by rw [hlen]; exact hi⟩,
    cashBoundAt, heq]

theorem cash_bounds_go (df : Table) (as : List String) (b : List (ℚ × ℚ))
    (S : List String) (d : ℚ × ℚ) (hlen : b.length = df.length)
    (hS : ∀ i, i < df.length → b.getD i d =
      if (rowAt df i).account_name ∈ S then cashBoundAt df i else (0, 0)) :
    ∀ i, i < df.length →
      (as.foldl (CashAllocationStrategy.boundsStep df) b).getD i d =
        if (rowAt df i).account_name ∈ S ∨ (rowAt df i).account_name ∈ as then
          cashBoundAt df i
        else (0, 0) := by
  induction as generalizing b S with
  | nil =>
    intro i hi
    rw [List.foldl_nil, hS i hi]
    exact if_congr (by simp) rfl rfl
  | cons a rest ih =>
    intro i hi
    rw [List.foldl_cons]
    have hres := ih (CashAllocationStrategy.boundsStep df b a) (a :: S)
      (by rw [length_cash_boundsStep, hlen])
      (fun k hk => by
        by_cases hk2 : (rowAt df k).account_name = a
        · rw [cash_boundsStep_getD_eq df b a k d hk hlen hk2,
            if_pos (by rw [hk2]; exact List.mem_cons_self a S)]
        · rw [cash_boundsStep_getD_ne df b a k d hk2, hS k hk]
          exact if_congr (by simp [List.mem_cons, hk2]) rfl rfl) i hi
    rw [hres]
    exact if_congr (by simp [List.mem_cons]; tauto) rfl rfl

/-- Full pointwise characterization of CashAllocationStrategy.bounds: participating
rows get the cash/non-cash bound, every other row keeps the (0, 0) fill. -/
theorem cash_bounds_getD (df : Table) (accounts : List String) (i : Nat)
    (d : ℚ × ℚ) (hi : i < df.length) :
    (CashAllocationStrategy.bounds df accounts).getD i d =
      if (rowAt df i).account_name ∈ accounts then cashBoundAt df i else (0, 0) := by
  unfold CashAllocationStrategy.bounds
  rw [cash_bounds_go df accounts (List.replicate df.length (0, 0)) [] d
    (List.length_replicate _ _)
    (fun k hk => by rw [getD_replicate, if_pos hk]; simp) i hi]
  exact if_congr (by simp) rfl rfl

theorem length_cash_bounds (df : Table) (accounts : List String) :
    (CashAllocationStrategy.bounds df accounts).length = df.length := by
  unfold CashAllocationStrategy.bounds
  have : ∀ (as : List String) (b : List (ℚ × ℚ)),
      (as.foldl (CashAllocationStrategy.boundsStep df) b).length = b.length := by
    intro as
    induction as with
    | nil => intro b; rfl
    | cons a rest ih =>
      intro b
      rw [List.foldl_cons, ih, length_cash_boundsStep]
  rw [this, List.length_replicate]

/-! ### Pointwise characterization of CashAllocationStrategy.initial_allocation -/

/-- Per-row value of the cash strategy initial guess for rows of participating
accounts. -/
def cashInitAt (df : Table) (i : Nat) : ℚ :=
  if 0 < _get_cash df (rowAt df i).account_name then
    if (rowAt df i).asset_class = AssetClass.CASH then -(rowAt df i).value
    else if idxmaxValue df (nonCashIdx df (rowAt df i).account_name) = some i then
      _get_cash df (rowAt df i).account_name / (rowAt df i).share_price
    else 0
  else 0

theorem cash_initialStep_none_iff (df : Table) (b : List ℚ) (acct : String) :
    CashAllocationStrategy.initialStep df b acct = none ↔
      0 < _get_cash df acct ∧ nonCashIdx df acct = [] := by
  unfold CashAllocationStrategy.initialStep
  by_cases hc : 0 < _get_cash df acct
  · rw [if_pos hc]
    rw [Option.map_eq_none', idxmaxValue_eq_none]
    exact ⟨fun h => ⟨hc, h⟩, fun h => h.2⟩
  · rw [if_neg hc]
    simp [hc]

theorem cash_initialStep_some_length (df : Table) (b : List ℚ) (acct : String)
    (x : List ℚ) (h : CashAllocationStrategy.initialStep df b acct = some x) :
    x.length = b.length := by
  unfold CashAllocationStrategy.initialStep at h
  by_cases hc : 0 < _get_cash df acct
  · rw [if_pos hc] at h
    cases hmax : idxmaxValue df (nonCashIdx df acct) with
    | none => rw [hmax] at h; exact absurd h (by simp)
    | some m =>
      rw [hmax] at h
      simp only [Option.map_some', Option.some.injEq] at h
      rw [← h, length_foldl_set, List.length_set]
  · rw [if_neg hc] at h
    simp only [Option.some.injEq] at h
    rw [← h]

theorem cash_initialStep_getD_ne (df : Table) (b : List ℚ) (acct : String)
    (x : List ℚ) (i : Nat) (h : CashAllocationStrategy.initialStep df b acct = some x)
    (hne : (rowAt df i).account_name ≠ acct) :
    x.getD i 0 = b.getD i 0 := by
  unfold CashAllocationStrategy.initialStep at h
  by_cases hc : 0 < _get_cash df acct
  · rw [if_pos hc] at h
    cases hmax : idxmaxValue df (nonCashIdx df acct) with
    | none => rw [hmax] at h; exact absurd h (by simp)
    | some m =>
      rw [hmax] at h
      simp only [Option.map_some', Option.some.injEq] at h
      have hmne : m ≠ i := by
        intro e
        have hm := (mem_nonCashIdx df acct m).mp (idxmaxValue_mem df _ m hmax)
        rw [e] at hm
        exact hne hm.2.1
      rw [← h, foldl_set_getD,
        if_neg (fun hx => hne ((mem_cashIdx df acct i).mp hx.1).2.1),
        getD_set_ne b m i _ _ hmne]
  · rw [if_neg hc] at h
    simp only [Option.some.injEq] at h
    rw [← h]

theorem cash_initialStep_getD_eq (df : Table) (b : List ℚ) (acct : String)
    (x : List ℚ) (i : Nat) (hi : i < df.length) (hlen : b.length = df.length)
    (h : CashAllocationStrategy.initialStep df b acct = some x)
    (heq : (rowAt df i).account_name = acct) :
    x.getD i 0 = cashInitAt df i ∨ (x.getD i 0 = b.getD i 0 ∧ cashInitAt df i = 0) := by
  unfold CashAllocationStrategy.initialStep at h
  by_cases hc : 0 < _get_cash df acct
  · rw [if_pos hc] at h
    cases hmax : idxmaxValue df (nonCashIdx df acct) with
    | none => rw [hmax] at h; exact absurd h (by simp)
    | some m =>
      rw [hmax] at h
      simp only [Option.map_some', Option.some.injEq] at h
      by_cases hclass : (rowAt df i).asset_class = AssetClass.CASH
      · left
        rw [← h, foldl_set_getD,
          if_pos ⟨(mem_cashIdx df acct i).mpr ⟨hi, heq, hclass⟩,
            by rw [List.length_set, hlen]; exact hi⟩,
          cashInitAt, heq, if_pos hc, if_pos hclass]
      · have hnotmem : i ∉ cashIdx df acct := fun hx =>
          hclass ((mem_cashIdx df acct i).mp hx).2.2
        by_cases him : m = i
        · left
          have hmlt : m < b.length := by
            rw [hlen]
            exact ((mem_nonCashIdx df acct m).mp (idxmaxValue_mem df _ m hmax)).1
          rw [← h, foldl_set_getD, if_neg (fun hx => hnotmem hx.1), him,
            getD_set_self b i _ _ (him ▸ hmlt),
            cashInitAt, heq, if_pos hc, if_neg hclass,
            if_pos (him ▸ hmax)]
        · right
          constructor
          · rw [← h, foldl_set_getD, if_neg (fun hx => hnotmem hx.1),
              getD_set_ne b m i _ _ him]
          · rw [cashInitAt, heq, if_pos hc, if_neg hclass,
              if_neg (fun e => him ((Option.some.injEq _ _).mp (hmax.symm.trans e)))]
  · rw [if_neg hc] at h
    simp only [Option.some.injEq] at h
    right
    rw [← h]
    refine ⟨rfl, ?_⟩
    rw [cashInitAt, heq, if_neg hc]

theorem cash_initial_foldlM_none (df : Table) (as : List String) (b : List ℚ) :
    List.foldlM (CashAllocationStrategy.initialStep df) b as = none ↔
      ∃ a ∈ as, 0 < _get_cash df a ∧ nonCashIdx df a = [] := by
  induction as generalizing b with
  | nil => simp
  | cons a rest ih =>
    rw [List.foldlM_cons]
    cases hstep : CashAllocationStrategy.initialStep df b a with
    | none =>
      have hbad := (cash_initialStep_none_iff df b a).mp hstep
      simp only [Option.bind_eq_bind, Option.none_bind]
      constructor
      · intro _
        exact ⟨a, List.mem_cons_self a rest, hbad⟩
      · intro _
        trivial
    | some b2 =>
      have hok := (cash_initialStep_none_iff df b a).not.mp (by rw [hstep]; simp)
      simp only [Option.bind_eq_bind, Option.some_bind]
      rw [ih b2]
      constructor
      · rintro ⟨a2, ha2, hb2⟩
        exact ⟨a2, List.mem_cons_of_mem a ha2, hb2⟩
      · rintro ⟨a2, ha2, hb2⟩
        rcases List.mem_cons.mp ha2 with rfl | ha3
        · exact absurd hb2 hok
        · exact ⟨a2, ha3, hb2⟩

theorem cash_initial_foldlM_some (df : Table) (as : List String) (b : List ℚ)
    (S : List String) (hlen : b.length = df.length)
    (hS : ∀ i, i < df.length → b.getD i 0 =
      if (rowAt df i).account_name ∈ S then cashInitAt df i else 0) :
    ∀ x0, List.foldlM (CashAllocationStrategy.initialStep df) b as = some x0 →
      x0.length = df.length ∧ ∀ i, i < df.length → x0.getD i 0 =
        if (rowAt df i).account_name ∈ S ∨ (rowAt df i).account_name ∈ as then
          cashInitAt df i
        else 0 := by
  induction as generalizing b S with
  | nil =>
    intro x0 h
    simp only [List.foldlM_nil, Option.pure_def, Option.some.injEq] at h
    subst h
    refine ⟨hlen, fun i hi => ?_⟩
    rw [hS i hi]
    exact if_congr (by simp) rfl rfl
  | cons a rest ih =>
    intro x0 h
    rw [List.foldlM_cons] at h
    cases hstep : CashAllocationStrategy.initialStep df b a with
    | none =>
      rw [hstep] at h
      exact absurd h (by simp)
    | some b2 =>
      rw [hstep] at h
      simp only [Option.bind_eq_bind, Option.some_bind] at h
      have hlen2 : b2.length = df.length := by
        rw [cash_initialStep_some_length df b a b2 hstep, hlen]
      have hS2 : ∀ i, i < df.length → b2.getD i 0 =
          if (rowAt df i).account_name ∈ a :: S then cashInitAt df i else 0 := by
        intro k hk
        by_cases hk2 : (rowAt df k).account_name = a
        · rcases cash_initialStep_getD_eq df b a b2 k hk hlen hstep hk2 with h1 | ⟨h1, h2⟩
          · rw [h1, if_pos (by rw [hk2]; exact List.mem_cons_self a S)]
          · rw [h1, hS k hk, h2, ite_self, ite_self]
        · rw [cash_initialStep_getD_ne df b a b2 k hstep hk2, hS k hk]
          exact if_congr (by simp [List.mem_cons, hk2]) rfl rfl
      obtain ⟨hl3, hp3⟩ := ih b2 (a :: S) hlen2 hS2 x0 h
      refine ⟨hl3, fun i hi => ?_⟩
      rw [hp3 i hi]
      exact if_congr (by simp [List.mem_cons]; tauto) rfl rfl

/-- CashAllocationStrategy.initial_allocation fails exactly when some participating
account has positive cash and no non-cash holding. -/
theorem cash_initial_none_iff (df : Table) (accounts : List String) :
    CashAllocationStrategy.initial_allocation df accounts = none ↔
      ∃ a ∈ accounts, 0 < _get_cash df a ∧ nonCashIdx df a = [] :=
  cash_initial_foldlM_none df accounts (List.replicate df.length 0)

/-- Full pointwise characterization of a successful
CashAllocationStrategy.initial_allocation. -/
theorem cash_initial_getD (df : Table) (accounts : List String) (x0 : List ℚ)
    (h : CashAllocationStrategy.initial_allocation df accounts = some x0) :
    x0.length = df.length ∧ ∀ i, i < df.length → x0.getD i 0 =
      if (rowAt df i).account_name ∈ accounts then cashInitAt df i else 0 := by
  obtain ⟨hl, hp⟩ := cash_initial_foldlM_some df accounts
    (List.replicate df.length 0) [] (List.length_replicate _ _)
    (fun k hk => by rw [getD_replicate, if_pos hk]; simp) x0 h
  refine ⟨hl, fun i hi => ?_⟩
  rw [hp i hi]
  exact if_congr (by simp) rfl rfl

/-- A minimal two-row table: one account with one stock holding and one cash
holding. -/
def miniDf : Table :=
  [⟨"A", "I", "Stock", AssetClass.SMALL_CAP, "STK", 10, 100, 1000⟩,
   ⟨"A", "I", "Cash", AssetClass.CASH, "CASH", 1, 50, 50⟩]

/-- A one-row table whose only account holds nothing but cash. -/
def soloDf : Table :=
  [⟨"Solo", "X", "Money Market", AssetClass.CASH, "CASH", 1, 100, 100⟩]

/-- C3: when CashAllocationStrategy.initial_allocation succeeds it returns a
full-length vector assigning, within each participating positive-cash account,
cash / share_price to the first value-largest non-cash holding, -value to every cash
holding, and 0 to every other row; and bounds pins participating cash holdings to
(-value, -value + ε) and participating non-cash holdings to (0, cash / share_price). -/
theorem claim_C3 (df : Table) (accounts : List String) (x0 : List ℚ)
    (hx : CashAllocationStrategy.initial_allocation df accounts = some x0) :
    x0.length = df.length ∧
    (∀ i, i < df.length →
      ((rowAt df i).account_name ∉ accounts ∨
        ¬0 < _get_cash df (rowAt df i).account_name) →
      x0.getD i 0 = 0) ∧
    (∀ i, i < df.length → (rowAt df i).account_name ∈ accounts →
      0 < _get_cash df (rowAt df i).account_name →
      (rowAt df i).asset_class = AssetClass.CASH →
      x0.getD i 0 = -(rowAt df i).value) ∧
    (∀ acct ∈ accounts, 0 < _get_cash df acct →
      ∃ m, m < df.length ∧ (rowAt df m).account_name = acct ∧
        (rowAt df m).asset_class ≠ AssetClass.CASH ∧
        (∀ j, j < df.length → (rowAt df j).account_name = acct →
          (rowAt df j).asset_class ≠ AssetClass.CASH →
          ((rowAt df j).value ≤ (rowAt df m).value ∧
            (j < m → (rowAt df j).value < (rowAt df m).value))) ∧
        x0.getD m 0 = _get_cash df acct / (rowAt df m).share_price ∧
        (∀ j, j < df.length → (rowAt df j).account_name = acct →
          (rowAt df j).asset_class ≠ AssetClass.CASH → j ≠ m → x0.getD j 0 = 0)) ∧
    (∀ i, i < df.length → (rowAt df i).account_name ∈ accounts →
      (CashAllocationStrategy.bounds df accounts).getD i (0, 0) =
        if (rowAt df i).asset_class = AssetClass.CASH then
          (-(rowAt df i).value, -(rowAt df i).value + _JITTER)
        else (0, _get_cash df (rowAt df i).account_name / (rowAt df i).share_price)) := by
  obtain ⟨hlen, hpt⟩ := cash_initial_getD df accounts x0 hx
  refine ⟨hlen, ?_, ?_, ?_, ?_⟩
  · intro i hi hcase
    rcases hcase with h | h
    · rw [hpt i hi, if_neg h]
    · rw [hpt i hi]
      by_cases hmem : (rowAt df i).account_name ∈ accounts
      · rw [if_pos hmem, cashInitAt, if_neg h]
      · rw [if_neg hmem]
  · intro i hi hmem hpos hclass
    rw [hpt i hi, if_pos hmem, cashInitAt, if_pos hpos, if_pos hclass]
  · intro acct hacct hpos
    have hnn : nonCashIdx df acct ≠ [] := by
      intro hempty
      rw [(cash_initial_none_iff df accounts).mpr ⟨acct, hacct, hpos, hempty⟩] at hx
      exact absurd hx (by simp)
    cases hm : idxmaxValue df (nonCashIdx df acct) with
    | none => exact absurd ((idxmaxValue_eq_none df _).mp hm) hnn
    | some m =>
      have hsorted : (nonCashIdx df acct).Pairwise (· < ·) :=
        (List.pairwise_lt_range _).filter _
      obtain ⟨hmem_m, hle, hlt⟩ := idxmaxValue_spec df _ hsorted m hm
      obtain ⟨hm_lt, hm_name, hm_class⟩ := (mem_nonCashIdx df acct m).mp hmem_m
      refine ⟨m, hm_lt, hm_name, hm_class, ?_, ?_, ?_⟩
      · intro j hj hjname hjclass
        have hjmem : j ∈ nonCashIdx df acct :=
          (mem_nonCashIdx df acct j).mpr ⟨hj, hjname, hjclass⟩
        exact ⟨hle j hjmem, fun hlt2 => hlt j hjmem hlt2⟩
      · rw [hpt m hm_lt, if_pos (by rw [hm_name]; exact hacct), cashInitAt, hm_name,
          if_pos hpos, if_neg hm_class, if_pos hm]
      · intro j hj hjname hjclass hjm
        rw [hpt j hj, if_pos (by rw [hjname]; exact hacct), cashInitAt, hjname,
          if_pos hpos, if_neg hjclass,
          if_neg (fun e => hjm (Option.some.inj (hm.symm.trans e)).symm)]
  · intro i hi hmem
    rw [cash_bounds_getD df accounts i (0, 0) hi, if_pos hmem, cashBoundAt]
    by_cases hclass : (rowAt df i).asset_class = AssetClass.CASH
    · rw [if_pos hclass, if_pos hclass, sub_eq_neg_add]
    · rw [if_neg hclass, if_neg hclass]

/-- Witness for C3 on the two-row table: all cash (50) goes into the stock at price
10 (initial guess 5 shares), the cash row is liquidated (initial guess -50), and the
cash row bound is (-50, -50 + ε). -/
theorem claim_C3_witness :
    CashAllocationStrategy.initial_allocation miniDf ["A"] = some [5, -50] ∧
    ([(5 : ℚ), -50].getD 0 0 = _get_cash miniDf "A" / (rowAt miniDf 0).share_price ∧
     [(5 : ℚ), -50].getD 1 0 = -(rowAt miniDf 1).value) ∧
    (CashAllocationStrategy.bounds miniDf ["A"]).getD 1 (0, 0) = (-50, -50 + _JITTER) := by
  have hfil : miniDf.filter (fun r =>
      decide (r.account_name = "A" ∧ r.asset_class = AssetClass.CASH)) =
      [⟨"A", "I", "Cash", AssetClass.CASH, "CASH", 1, 50, 50⟩] := by decide
  have e1 : _get_cash miniDf "A" = 50 := by
    rw [_get_cash, hfil]
    norm_num
  have e2 : nonCashIdx miniDf "A" = [0] := by decide
  have e3 : cashIdx miniDf "A" = [1] := by decide
  have e4 : idxmaxValue miniDf [0] = some 0 := rfl
  have hx : CashAllocationStrategy.initial_allocation miniDf ["A"] = some [5, -50] := by
    unfold CashAllocationStrategy.initial_allocation
    simp only [List.foldlM_cons, List.foldlM_nil]
    unfold CashAllocationStrategy.initialStep
    rw [e1, e2, e3, e4, if_pos (by norm_num : (0 : ℚ) < 50)]
    simp only [Option.map_some', List.foldl_cons, List.foldl_nil, Option.bind_eq_bind,
      Option.some_bind, Option.pure_def]
    have hrow0 : rowAt miniDf 0 =
        ⟨"A", "I", "Stock", AssetClass.SMALL_CAP, "STK", 10, 100, 1000⟩ := rfl
    have hrow1 : rowAt miniDf 1 =
        ⟨"A", "I", "Cash", AssetClass.CASH, "CASH", 1, 50, 50⟩ := rfl
    rw [hrow0, hrow1]
    norm_num [List.replicate, List.set]
  have h := claim_C3 miniDf ["A"] [5, -50] hx
  refine ⟨hx, ⟨?_, ?_⟩, ?_⟩
  · obtain ⟨m, -, hm_name, hm_class, -, hval, -⟩ :=
      h.2.2.2.1 "A" (List.mem_cons_self "A" []) (by rw [e1]; norm_num)
    have hm0 : m = 0 := by
      have := (mem_nonCashIdx miniDf "A" m).mpr
        ⟨by
          by_contra hge
          have : rowAt miniDf m = default := getD_out_of_range _ _ _ (by omega)
          rw [this] at hm_name
          exact absurd hm_name (by decide), hm_name, hm_class⟩
      rw [e2] at this
      simpa using this
    rw [hm0] at hval
    exact hval
  · exact h.2.2.1 1 (by decide) (by decide)
      (by rw [show (rowAt miniDf 1).account_name = "A" from rfl, e1]; norm_num) (by decide)
  · have hb := h.2.2.2.2 1 (by decide) (by decide)
    rw [hb, if_pos (by decide)]
    have hrow1 : rowAt miniDf 1 =
        ⟨"A", "I", "Cash", AssetClass.CASH, "CASH", 1, 50, 50⟩ := rfl
    rw [hrow1]

/-- C5 fails for CashAllocationStrategy: on the sample table with only the taxable
account participating, the non-participating IRA row gets the fully degenerate
interval (0, 0), not (0, ε) with ε positive. -/
theorem claim_C5_counterexample :
    (rowAt sampleDf 3).account_name ∉ ["Joint WROS"] ∧
    (CashAllocationStrategy.bounds sampleDf ["Joint WROS"]).getD 3 (0, 0) ≠
      (0, _JITTER) := by
  constructor
  · decide
  · have h := cash_bounds_getD sampleDf ["Joint WROS"] 3 (0, 0) (by decide)
    rw [if_neg (by decide)] at h
    rw [h]
    intro e
    have h2 := congrArg Prod.snd e
    norm_num [_JITTER] at h2

/-- C5 amended: non-participating rows get (0, ε) with ε = _JITTER > 0 under
RebalanceAllocationStrategy, but under CashAllocationStrategy they get the fully
degenerate interval (0, 0). -/
theorem claim_C5 (df : Table) (accounts : List String) (i : Nat)
    (hi : i < df.length) (hnp : (rowAt df i).account_name ∉ accounts) :
    (RebalanceAllocationStrategy.bounds df accounts).getD i (0, 0) = (0, _JITTER) ∧
    0 < _JITTER ∧
    (CashAllocationStrategy.bounds df accounts).getD i (0, 0) = (0, 0) := by
  refine ⟨?_, by norm_num [_JITTER], ?_⟩
  · rw [rebalance_bounds_getD df accounts i (0, 0) hi, if_neg hnp]
  · rw [cash_bounds_getD df accounts i (0, 0) hi, if_neg hnp]

/-- Witness for the amended C5 at the sample table's non-participating IRA row. -/
theorem claim_C5_witness :
    (RebalanceAllocationStrategy.bounds sampleDf ["Joint WROS"]).getD 3 (0, 0) =
      (0, _JITTER) ∧
    (CashAllocationStrategy.bounds sampleDf ["Joint WROS"]).getD 3 (0, 0) = (0, 0) := by
  have h := claim_C5 sampleDf ["Joint WROS"] 3 (by decide) (by decide)
  exact ⟨h.1, h.2.2⟩

/-- C10: CashAllocationStrategy.initial_allocation fails (pandas idxmax on an empty
selection) when a participating account has positive cash but no non-cash holding,
and is total when every participating positive-cash account has one. -/
theorem claim_C10 :
    CashAllocationStrategy.initial_allocation soloDf ["Solo"] = none ∧
    ∀ (df : Table) (accounts : List String),
      (∀ acct ∈ accounts, 0 < _get_cash df acct → nonCashIdx df acct ≠ []) →
      (CashAllocationStrategy.initial_allocation df accounts).isSome := by
  constructor
  · rw [cash_initial_none_iff]
    refine ⟨"Solo", List.mem_cons_self "Solo" [], ?_, by decide⟩
    have hfil : soloDf.filter (fun r =>
        decide (r.account_name = "Solo" ∧ r.asset_class = AssetClass.CASH)) =
        soloDf := by decide
    rw [_get_cash, hfil]
    norm_num [soloDf]
  · intro df accounts hpre
    cases hres : CashAllocationStrategy.initial_allocation df accounts with
    | some x => simp
    | none =>
      obtain ⟨a, ha, hpos, hempty⟩ := (cash_initial_none_iff df accounts).mp hres
      exact absurd hempty (hpre a ha hpos)

/-- Witness for C10 totality on the two-row table. -/
theorem claim_C10_witness :
    (CashAllocationStrategy.initial_allocation miniDf ["A"]).isSome := by
  refine claim_C10.2 miniDf ["A"] ?_
  intro acct hacct hpos
  have ha : acct = "A" := by simpa using hacct
  rw [ha]
  decide

/-! ### framing.Context and framing.combine -/

/-- The slice of account.Account that framing.Context reads: the account name and
the taxable flag. -/
structure Account where
  name : String
  is_taxable : Bool
  deriving DecidableEq, Repr

/-- A framing strategy: per-holding initial trade-size guesses (fallible, see
CashAllocationStrategy) and per-holding trade-size bounds. -/
structure Strategy where
  initial_allocation : Table → List String → Option (List ℚ)
  bounds : Table → List String → List (ℚ × ℚ)

/-- framing.CashAllocationStrategy as a Strategy value. -/
def cashAllocationStrategy : Strategy :=
  ⟨CashAllocationStrategy.initial_allocation, CashAllocationStrategy.bounds⟩

/-- framing.RebalanceAllocationStrategy as a Strategy value. -/
def rebalanceAllocationStrategy : Strategy :=
  ⟨fun df accounts => some (RebalanceAllocationStrategy.initial_allocation df accounts),
   RebalanceAllocationStrategy.bounds⟩

/-- framing.Context: an optional taxable and an optional non-taxable strategy. -/
structure Context where
  taxable : Option Strategy
  non_taxable : Option Strategy

/-- Names of the taxable accounts, in account-list order. -/
def taxableNames (accounts : List Account) : List String :=
  (accounts.filter (fun a => a.is_taxable)).map (fun a => a.name)

/-- Names of the non-taxable accounts, in account-list order. -/
def nonTaxableNames (accounts : List Account) : List String :=
  (accounts.filter (fun a => !a.is_taxable)).map (fun a => a.name)

/-- framing.combine: one full-length vector whose row i comes from the taxable-side
vector when row i's account name is in the taxable name list, and from the
non-taxable-side vector otherwise. -/
def combine {α : Type} [Inhabited α] (x0_taxable x0_non_taxable : List α) (df : Table)
    (taxable : List String) : List α :=
  (List.range df.length).map (fun holding =>
    if (rowAt df holding).account_name ∈ taxable then x0_taxable.getD holding default
    else x0_non_taxable.getD holding default)

/-- The Python pattern x0_part = zeros; if strategy is not None and the partition is
nonempty: x0_part = strategy.initial_allocation(df, partition). -/
def resolveInitial (os : Option Strategy) (df : Table) (names : List String) :
    Option (List ℚ) :=
  match os with
  | some s =>
    if 0 < names.length then s.initial_allocation df names
    else some (List.replicate df.length 0)
  | none => some (List.replicate df.length 0)

/-- The Python pattern bounds_part = [(0, _JITTER)] * n; if strategy is not None and
the partition is nonempty: bounds_part = strategy.bounds(df, partition). -/
def resolveBounds (os : Option Strategy) (df : Table) (names : List String) :
    List (ℚ × ℚ) :=
  match os with
  | some s =>
    if 0 < names.length then s.bounds df names
    else List.replicate df.length (0, _JITTER)
  | none => List.replicate df.length (0, _JITTER)

/-- framing.Context.get_initial_allocation. -/
def Context.get_initial_allocation (ctx : Context) (df : Table)
    (accounts : List Account) : Option (List ℚ) :=
  (resolveInitial ctx.taxable df (taxableNames accounts)).bind (fun x0_taxable =>
    (resolveInitial ctx.non_taxable df (nonTaxableNames accounts)).map
      (fun x0_non_taxable =>
        combine x0_taxable x0_non_taxable df (taxableNames accounts)))

/-- framing.Context.get_allocation_bounds. -/
def Context.get_allocation_bounds (ctx : Context) (df : Table)
    (accounts : List Account) : List (ℚ × ℚ) :=
  combine (resolveBounds ctx.taxable df (taxableNames accounts))
    (resolveBounds ctx.non_taxable df (nonTaxableNames accounts)) df
    (taxableNames accounts)

theorem getD_irrel {α : Type} (b : List α) (i : Nat) (d1 d2 : α) (h : i < b.length) :
    b.getD i d1 = b.getD i d2 := by
  induction b generalizing i with
  | nil => simp at h
  | cons x xs ih =>
    cases i with
    | zero => rfl
    | succ j => exact ih j (by simpa using h)

theorem getD_append_left {α : Type} (l1 l2 : List α) (i : Nat) (d : α)
    (h : i < l1.length) : (l1 ++ l2).getD i d = l1.getD i d := by
  induction l1 generalizing i with
  | nil => simp at h
  | cons x xs ih =>
    cases i with
    | zero => rfl
    | succ j => exact ih j (by simpa using h)

theorem getD_append_full {α : Type} (l1 l2 : List α) (k : Nat) (d : α) :
    (l1 ++ l2).getD (l1.length + k) d = l2.getD k d := by
  induction l1 with
  | nil => simp
  | cons x xs ih =>
    have : (x :: xs).length + k = ((xs.length + k) + 1) := by
      simp
      omega
    rw [this]
    exact ih

theorem getD_map_range {α : Type} (n i : Nat) (f : Nat → α) (d : α) :
    ((List.range n).map f).getD i d = if i < n then f i else d := by
  induction n with
  | zero => simp
  | succ m ih =>
    rw [List.range_succ, List.map_append]
    by_cases h : i < m
    · have hlen : i < ((List.range m).map f).length := by
        rw [List.length_map, List.length_range]
        exact h
      rw [if_pos (by omega), getD_append_left _ _ _ _ hlen, ih, if_pos h]
    · by_cases h2 : i = m
      · subst h2
        have hlen : ((List.range i).map f).length = i := by
          rw [List.length_map, List.length_range]
        have := getD_append_full ((List.range i).map f) (List.map f [i]) 0 d
        rw [hlen] at this
        rw [if_pos (by omega)]
        simp only [Nat.add_zero, List.map_cons, List.map_nil] at this
        exact this
      · rw [if_neg (by omega)]
        refine getD_out_of_range _ _ _ ?_
        simp only [List.length_append, List.length_map, List.length_range,
          List.length_cons, List.length_nil]
        omega

theorem resolveInitial_none (df : Table) (names : List String) :
    resolveInitial none df names = some (List.replicate df.length 0) := rfl

theorem resolveBounds_none (df : Table) (names : List String) :
    resolveBounds none df names = List.replicate df.length (0, _JITTER) := rfl

theorem combine_getD {α : Type} [Inhabited α] (xt xn : List α) (df : Table)
    (tax : List String) (i : Nat) (hi : i < df.length) (d : α) :
    (combine xt xn df tax).getD i d =
      if (rowAt df i).account_name ∈ tax then xt.getD i default
      else xn.getD i default := by
  rw [combine, getD_map_range, if_pos hi]

theorem length_combine {α : Type} [Inhabited α] (xt xn : List α) (df : Table)
    (tax : List String) : (combine xt xn df tax).length = df.length := by
  rw [combine, List.length_map, List.length_range]

/-- C6: the Context merge picks each row by the row's account tax status (never by
strategy iteration order), the merged vectors are full-length, and an absent
strategy defaults its partition's rows to a 0 initial guess and a (0, ε) bound. -/
theorem claim_C6 (ctx : Context) (df : Table) (accounts : List Account) (i : Nat)
    (hi : i < df.length) (xt xn x0 : List ℚ)
    (hlt : xt.length = df.length) (hln : xn.length = df.length)
    (hxt : resolveInitial ctx.taxable df (taxableNames accounts) = some xt)
    (hxn : resolveInitial ctx.non_taxable df (nonTaxableNames accounts) = some xn)
    (hx0 : Context.get_initial_allocation ctx df accounts = some x0) :
    x0.length = df.length ∧
    (Context.get_allocation_bounds ctx df accounts).length = df.length ∧
    x0.getD i 0 =
      (if (rowAt df i).account_name ∈ taxableNames accounts then xt.getD i 0
       else xn.getD i 0) ∧
    (Context.get_allocation_bounds ctx df accounts).getD i (0, 0) =
      (if (rowAt df i).account_name ∈ taxableNames accounts then
        (resolveBounds ctx.taxable df (taxableNames accounts)).getD i (0, 0)
       else (resolveBounds ctx.non_taxable df (nonTaxableNames accounts)).getD i (0, 0)) ∧
    (ctx.taxable = none → (rowAt df i).account_name ∈ taxableNames accounts →
      x0.getD i 0 = 0 ∧
      (Context.get_allocation_bounds ctx df accounts).getD i (0, 0) = (0, _JITTER)) ∧
    (ctx.non_taxable = none → (rowAt df i).account_name ∉ taxableNames accounts →
      x0.getD i 0 = 0 ∧
      (Context.get_allocation_bounds ctx df accounts).getD i (0, 0) = (0, _JITTER)) := by
  rw [Context.get_initial_allocation, hxt, hxn] at hx0
  simp only [Option.some_bind, Option.map_some', Option.some.injEq] at hx0
  subst hx0
  have hmerge : (combine xt xn df (taxableNames accounts)).getD i 0 =
      if (rowAt df i).account_name ∈ taxableNames accounts then xt.getD i 0
      else xn.getD i 0 := by
    rw [combine_getD xt xn df _ i hi 0]
    by_cases hmem : (rowAt df i).account_name ∈ taxableNames accounts
    · rw [if_pos hmem, if_pos hmem, getD_irrel xt i _ _ (by rw [hlt]; exact hi)]
    · rw [if_neg hmem, if_neg hmem, getD_irrel xn i _ _ (by rw [hln]; exact hi)]
  have hbm : (Context.get_allocation_bounds ctx df accounts).getD i (0, 0) =
      if (rowAt df i).account_name ∈ taxableNames accounts then
        (resolveBounds ctx.taxable df (taxableNames accounts)).getD i (0, 0)
      else (resolveBounds ctx.non_taxable df (nonTaxableNames accounts)).getD i (0, 0) := by
    rw [Context.get_allocation_bounds, combine_getD _ _ df _ i hi (0, 0)]
    by_cases hmem : (rowAt df i).account_name ∈ taxableNames accounts
    · rw [if_pos hmem, if_pos hmem]
      by_cases hr : i < (resolveBounds ctx.taxable df (taxableNames accounts)).length
      · exact getD_irrel _ i _ _ hr
      · rw [getD_out_of_range _ _ _ (by omega), getD_out_of_range _ _ _ (by omega)]
        rfl
    · rw [if_neg hmem, if_neg hmem]
      by_cases hr : i < (resolveBounds ctx.non_taxable df (nonTaxableNames accounts)).length
      · exact getD_irrel _ i _ _ hr
      · rw [getD_out_of_range _ _ _ (by omega), getD_out_of_range _ _ _ (by omega)]
        rfl
  refine ⟨length_combine xt xn df _, length_combine _ _ df _, hmerge, hbm, ?_, ?_⟩
  · intro htn hmem
    constructor
    · rw [hmerge, if_pos hmem]
      have hrepl : xt = List.replicate df.length 0 := by
        rw [htn, resolveInitial_none] at hxt
        exact (Option.some.injEq _ _).mp hxt.symm
      rw [hrepl, getD_replicate, if_pos hi]
    · rw [hbm, if_pos hmem, htn, resolveBounds_none, getD_replicate, if_pos hi]
  · intro htn hmem
    constructor
    · rw [hmerge, if_neg hmem]
      have hrepl : xn = List.replicate df.length 0 := by
        rw [htn, resolveInitial_none] at hxn
        exact (Option.some.injEq _ _).mp hxn.symm
      rw [hrepl, getD_replicate, if_pos hi]
    · rw [hbm, if_neg hmem, htn, resolveBounds_none, getD_replicate, if_pos hi]

/-- The two test accounts: the taxable Fidelity account and the non-taxable IRA. -/
def sampleAccounts : List Account :=
  [⟨"Joint WROS", true⟩, ⟨"INDIVIDUAL IRA", false⟩]

/-- Witness for C6: with no strategy configured, both partitions default; the IRA
row gets initial guess 0 and bound (0, ε). -/
theorem claim_C6_witness :
    Context.get_initial_allocation ⟨none, none⟩ sampleDf sampleAccounts =
      some [0, 0, 0, 0] ∧
    [(0 : ℚ), 0, 0, 0].getD 3 0 = 0 ∧
    (Context.get_allocation_bounds ⟨none, none⟩ sampleDf sampleAccounts).getD 3 (0, 0) =
      (0, _JITTER) := by
  have hx0 : Context.get_initial_allocation ⟨none, none⟩ sampleDf sampleAccounts =
      some [0, 0, 0, 0] := by decide
  have h := claim_C6 ⟨none, none⟩ sampleDf sampleAccounts 3 (by decide)
    (List.replicate 4 0) (List.replicate 4 0) [0, 0, 0, 0]
    (by decide) (by decide) (by decide) (by decide) hx0
  have habs := h.2.2.2.2.2 rfl (by decide)
  exact ⟨hx0, habs.1, habs.2⟩

/-! ### Portfolio._get_linear_constraint -/

/-- scipy.optimize.LinearConstraint(coefficients, lb, ub). -/
structure LinearConstraint where
  coefficients : List (List ℚ)
  lb : List ℚ
  ub : List ℚ

/-- A row of n zero coefficients ([0] * num_holdings). -/
def zeroRow (n : Nat) : List ℚ := List.replicate n 0

/-- coefficients[a][i] = v. -/
def setEntry (m : List (List ℚ)) (a i : Nat) (v : ℚ) : List (List ℚ) :=
  m.set a ((m.getD a []).set i v)

/-- coefficients[a][i]. -/
def entry (m : List (List ℚ)) (a i : Nat) : ℚ := (m.getD a []).getD i 0

/-- The loop over df.index[1:] of Portfolio._get_linear_constraint: row_number is
the position of the next row, curr_account the name seen on the previous row,
account_number the index of the constraint row being filled. -/
def constraintGo (n : Nat) :
    List Row → Nat → String → Nat → List (List ℚ) → List (List ℚ)
  | [], _, _, _, coefficients => coefficients
  | row :: rest, row_number, curr_account, account_number, coefficients =>
    if row.account_name ≠ curr_account then
      constraintGo n rest (row_number + 1) row.account_name (account_number + 1)
        (setEntry (coefficients ++ [zeroRow n]) (account_number + 1) row_number
          row.share_price)
    else
      constraintGo n rest (row_number + 1) curr_account account_number
        (setEntry coefficients account_number row_number row.share_price)

/-- Portfolio._get_linear_constraint. The Python indexes df.iloc[0], so an empty
table raises; that branch returns an empty constraint and is excluded by the
nonemptiness hypothesis of every theorem about it. -/
def _get_linear_constraint (df : Table) : LinearConstraint :=
  match df with
  | [] => ⟨[], [], []⟩
  | row0 :: rest =>
    let n := (row0 :: rest).length
    let coefficients := constraintGo n rest 1 row0.account_name 0
      (setEntry [zeroRow n] 0 0 row0.share_price)
    let num_accounts := (((row0 :: rest).map (fun r => r.account_name)).dedup).length
    ⟨coefficients, List.replicate num_accounts 0, List.replicate num_accounts 0⟩

/-- Run index of row k: how many adjacent account-name changes happen up to row k. -/
def runIdxD (df : Table) : Nat → Nat
  | 0 => 0
  | k + 1 =>
    runIdxD df k +
      (if (rowAt df (k + 1)).account_name ≠ (rowAt df k).account_name then 1 else 0)

/-- Adjacent deduplication: one representative per run of equal names. -/
def dedupAdj : List String → List String
  | [] => []
  | [a] => [a]
  | a :: b :: rest => if b = a then dedupAdj (b :: rest) else a :: dedupAdj (b :: rest)

theorem length_setEntry (m : List (List ℚ)) (a i : Nat) (v : ℚ) :
    (setEntry m a i v).length = m.length := List.length_set m a _

theorem mem_getD_of_lt {α : Type} (m : List α) (a : Nat) (d : α) (h : a < m.length) :
    m.getD a d ∈ m := by
  induction m generalizing a with
  | nil => simp at h
  | cons x xs ih =>
    cases a with
    | zero => exact List.mem_cons_self x xs
    | succ b => exact List.mem_cons_of_mem x (ih b (by simpa using h))

theorem rows_setEntry (m : List (List ℚ)) (a i : Nat) (v : ℚ) (n : Nat)
    (ha : a < m.length) (hm : ∀ r ∈ m, r.length = n) :
    ∀ r ∈ setEntry m a i v, r.length = n := by
  intro r hr
  rcases List.mem_or_eq_of_mem_set hr with h | h
  · exact hm r h
  · rw [h, List.length_set]
    exact hm _ (mem_getD_of_lt m a [] ha)

theorem entry_setEntry_self (m : List (List ℚ)) (a i : Nat) (v : ℚ)
    (ha : a < m.length) (hi : i < (m.getD a []).length) :
    entry (setEntry m a i v) a i = v := by
  rw [entry, setEntry, getD_set_self _ _ _ _ ha, getD_set_self _ _ _ _ hi]

theorem entry_setEntry_ne (m : List (List ℚ)) (a i b j : Nat) (v : ℚ)
    (h : b ≠ a ∨ j ≠ i) : entry (setEntry m a i v) b j = entry m b j := by
  rcases h with h | h
  · rw [entry, setEntry, getD_set_ne _ _ _ _ _ (fun e => h e.symm), entry]
  · rw [entry, setEntry]
    by_cases hba : b = a
    · subst hba
      by_cases hb : b < m.length
      · rw [getD_set_self _ _ _ _ hb, getD_set_ne _ _ _ _ _ (fun e => h e.symm), entry]
      · rw [List.set_eq_of_length_le (by omega), entry]
    · rw [getD_set_ne _ _ _ _ _ (fun e => hba e.symm), entry]

/-- Run index over a plain name list. -/
def runIdxL (l : List String) : Nat → Nat
  | 0 => 0
  | k + 1 => runIdxL l k + (if l.getD (k + 1) "" ≠ l.getD k "" then 1 else 0)

theorem getD_map {α β : Type} (f : α → β) (l : List α) (i : Nat) (d : α) :
    (l.map f).getD i (f d) = f (l.getD i d) := by
  induction l generalizing i with
  | nil => rfl
  | cons x xs ih =>
    cases i with
    | zero => rfl
    | succ j => exact ih j

theorem runIdxD_eq_runIdxL (df : Table) (k : Nat) :
    runIdxD df k = runIdxL (df.map (fun r => r.account_name)) k := by
  induction k with
  | zero => rfl
  | succ m ih =>
    rw [runIdxD, runIdxL, ih]
    have h1 : (df.map (fun r => r.account_name)).getD (m + 1) "" =
        (rowAt df (m + 1)).account_name := getD_map (fun r => r.account_name) df (m + 1) default
    have h2 : (df.map (fun r => r.account_name)).getD m "" =
        (rowAt df m).account_name := getD_map (fun r => r.account_name) df m default
    rw [h1, h2]

theorem runIdxL_cons (a : String) (t : List String) (k : Nat) :
    runIdxL (a :: t) (k + 1) =
      (if t.getD 0 "" ≠ a then 1 else 0) + runIdxL t k := by
  induction k with
  | zero =>
    have h0 : runIdxL (a :: t) 1 = runIdxL (a :: t) 0 +
        (if (a :: t).getD 1 "" ≠ (a :: t).getD 0 "" then 1 else 0) := rfl
    have h1 : (a :: t).getD 1 "" = t.getD 0 "" := rfl
    have h2 : (a :: t).getD 0 "" = a := rfl
    have h3 : runIdxL (a :: t) 0 = 0 := rfl
    have h4 : runIdxL t 0 = 0 := rfl
    rw [h0, h1, h2, h3, h4]
    omega
  | succ m ih =>
    show runIdxL (a :: t) (m + 1) + _ = _
    rw [ih, runIdxL]
    have h1 : (a :: t).getD (m + 2) "" = t.getD (m + 1) "" := rfl
    have h2 : (a :: t).getD (m + 1) "" = t.getD m "" := rfl
    rw [h1, h2]
    omega

theorem runIdxL_mono (l : List String) (i j : Nat) (h : i ≤ j) :
    runIdxL l i ≤ runIdxL l j := by
  induction j with
  | zero =>
    have : i = 0 := by omega
    rw [this]
  | succ m ih =>
    rcases Nat.lt_or_ge i (m + 1) with h2 | h2
    · have := ih (by omega)
      rw [runIdxL]
      omega
    · have : i = m + 1 := by omega
      rw [this]

theorem runIdxD_mono (df : Table) (i j : Nat) (h : i ≤ j) :
    runIdxD df i ≤ runIdxD df j := by
  rw [runIdxD_eq_runIdxL, runIdxD_eq_runIdxL]
  exact runIdxL_mono _ i j h

theorem dedupAdj_head (l : List String) (hl : l ≠ []) :
    (dedupAdj l).getD 0 "" = l.getD 0 "" := by
  induction l with
  | nil => exact absurd rfl hl
  | cons a t ih =>
    cases t with
    | nil => rfl
    | cons b rest =>
      show (if b = a then dedupAdj (b :: rest) else a :: dedupAdj (b :: rest)).getD 0 "" = a
      by_cases hba : b = a
      · rw [if_pos hba, ih (by simp)]
        exact hba
      · rw [if_neg hba]
        rfl

theorem dedupAdj_runIdxL (l : List String) (i : Nat) (hi : i < l.length) :
    (dedupAdj l).getD (runIdxL l i) "" = l.getD i "" := by
  induction l generalizing i with
  | nil => simp at hi
  | cons a t ih =>
    cases t with
    | nil =>
      have : i = 0 := by simpa using hi
      rw [this]
      rfl
    | cons b rest =>
      cases i with
      | zero =>
        show (dedupAdj (a :: b :: rest)).getD (runIdxL (a :: b :: rest) 0) "" = a
        exact dedupAdj_head (a :: b :: rest) (by simp)
      | succ k =>
        rw [runIdxL_cons a (b :: rest) k]
        have hb0 : (b :: rest).getD 0 "" = b := rfl
        rw [hb0]
        have hgk : (a :: b :: rest).getD (k + 1) "" = (b :: rest).getD k "" := rfl
        rw [hgk]
        show (if b = a then dedupAdj (b :: rest) else a :: dedupAdj (b :: rest)).getD _ "" = _
        by_cases hba : b = a
        · rw [if_pos hba, if_neg (by rw [hba]; exact fun h => h rfl)]
          have : (0 : Nat) + runIdxL (b :: rest) k = runIdxL (b :: rest) k := by omega
          rw [this]
          exact ih k (by simpa using hi)
        · rw [if_neg hba, if_pos (fun h => hba h), Nat.add_comm]
          show (dedupAdj (b :: rest)).getD (runIdxL (b :: rest) k) "" = _
          exact ih k (by simpa using hi)

theorem dedupAdj_length (l : List String) (hl : l ≠ []) :
    (dedupAdj l).length = runIdxL l (l.length - 1) + 1 := by
  induction l with
  | nil => exact absurd rfl hl
  | cons a t ih =>
    cases t with
    | nil => rfl
    | cons b rest =>
      have hlen : (a :: b :: rest).length - 1 = ((b :: rest).length - 1) + 1 := by
        simp
      rw [hlen, runIdxL_cons a (b :: rest)]
      have hb0 : (b :: rest).getD 0 "" = b := rfl
      rw [hb0]
      show (if b = a then dedupAdj (b :: rest) else a :: dedupAdj (b :: rest)).length = _
      by_cases hba : b = a
      · rw [if_pos hba, ih (by simp), if_neg (by rw [hba]; exact fun h => h rfl)]
        omega
      · rw [if_neg hba, List.length_cons, ih (by simp), if_pos (fun h => hba h)]
        omega

theorem mem_dedupAdj (l : List String) (x : String) : x ∈ dedupAdj l ↔ x ∈ l := by
  induction l with
  | nil => rfl
  | cons a t ih =>
    cases t with
    | nil => rfl
    | cons b rest =>
      show x ∈ (if b = a then dedupAdj (b :: rest) else a :: dedupAdj (b :: rest)) ↔ _
      by_cases hba : b = a
      · rw [if_pos hba, ih]
        subst hba
        simp [List.mem_cons]
      · rw [if_neg hba]
        simp only [List.mem_cons, ih]

theorem nodup_getD_inj (l : List String) (h : l.Nodup) (a b : Nat)
    (ha : a < l.length) (hb : b < l.length) (he : l.getD a "" = l.getD b "") :
    a = b := by
  induction l generalizing a b with
  | nil => simp at ha
  | cons x t ih =>
    obtain ⟨hx, ht⟩ := List.nodup_cons.mp h
    cases a with
    | zero =>
      cases b with
      | zero => rfl
      | succ b2 =>
        exfalso
        have hmem : t.getD b2 "" ∈ t := mem_getD_of_lt t b2 "" (by simpa using hb)
        have he2 : x = t.getD b2 "" := he
        rw [← he2] at hmem
        exact hx hmem
    | succ a2 =>
      cases b with
      | zero =>
        exfalso
        have hmem : t.getD a2 "" ∈ t := mem_getD_of_lt t a2 "" (by simpa using ha)
        have he2 : t.getD a2 "" = x := he
        rw [he2] at hmem
        exact hx hmem
      | succ b2 =>
        have := ih ht a2 b2 (by simpa using ha) (by simpa using hb) he
        omega

theorem drop_eq_rowAt_cons (df : Table) (k : Nat) (h : k < df.length) :
    df.drop k = rowAt df k :: df.drop (k + 1) := by
  induction df generalizing k with
  | nil => simp at h
  | cons x t ih =>
    cases k with
    | zero => rfl
    | succ m =>
      show t.drop m = rowAt t m :: t.drop (m + 1)
      exact ih m (by simpa using h)

theorem getD_append_at_length {α : Type} (C : List α) (z : α) (d : α) :
    (C ++ [z]).getD C.length d = z := by
  have h := getD_append_full C [z] 0 d
  rw [Nat.add_zero] at h
  exact h

theorem constraintGo_spec (df : Table) :
    ∀ (fuel k : Nat) (C : List (List ℚ)), df.length - k = fuel → 1 ≤ k →
    k ≤ df.length →
    C.length = runIdxD df (k - 1) + 1 →
    (∀ r ∈ C, r.length = df.length) →
    (∀ b j, entry C b j =
      if j < k ∧ runIdxD df j = b then (rowAt df j).share_price else 0) →
    (constraintGo df.length (df.drop k) k (rowAt df (k - 1)).account_name
        (runIdxD df (k - 1)) C).length = runIdxD df (df.length - 1) + 1 ∧
    (∀ r ∈ constraintGo df.length (df.drop k) k (rowAt df (k - 1)).account_name
        (runIdxD df (k - 1)) C, r.length = df.length) ∧
    (∀ b j, entry (constraintGo df.length (df.drop k) k
        (rowAt df (k - 1)).account_name (runIdxD df (k - 1)) C) b j =
      if j < df.length ∧ runIdxD df j = b then (rowAt df j).share_price else 0) := by
  intro fuel
  induction fuel with
  | zero =>
    intro k C hfuel hk1 hkn hlen hrows hent
    have hkeq : k = df.length := by omega
    subst hkeq
    rw [List.drop_length]
    have hnil : constraintGo df.length [] df.length
        (rowAt df (df.length - 1)).account_name
        (runIdxD df (df.length - 1)) C = C := rfl
    rw [hnil]
    exact ⟨hlen, hrows, hent⟩
  | succ fuel ih =>
    intro k C hfuel hk1 hkn hlen hrows hent
    have hklt : k < df.length := by omega
    have hk0 : k - 1 + 1 = k := by omega
    rw [drop_eq_rowAt_cons df k hklt]
    have hstep : constraintGo df.length (rowAt df k :: df.drop (k + 1)) k
        (rowAt df (k - 1)).account_name (runIdxD df (k - 1)) C =
        if (rowAt df k).account_name ≠ (rowAt df (k - 1)).account_name then
          constraintGo df.length (df.drop (k + 1)) (k + 1) (rowAt df k).account_name
            (runIdxD df (k - 1) + 1)
            (setEntry (C ++ [zeroRow df.length]) (runIdxD df (k - 1) + 1) k
              (rowAt df k).share_price)
        else
          constraintGo df.length (df.drop (k + 1)) (k + 1)
            (rowAt df (k - 1)).account_name (runIdxD df (k - 1))
            (setEntry C (runIdxD df (k - 1)) k (rowAt df k).share_price) := rfl
    rw [hstep]
    have hrunstep : runIdxD df k = runIdxD df (k - 1) +
        (if (rowAt df k).account_name ≠ (rowAt df (k - 1)).account_name then 1
         else 0) := by
      conv_lhs => rw [← hk0]
      rw [runIdxD, hk0]
    by_cases hchg : (rowAt df k).account_name ≠ (rowAt df (k - 1)).account_name
    · rw [if_pos hchg]
      have hrun : runIdxD df k = runIdxD df (k - 1) + 1 := by
        rw [hrunstep, if_pos hchg]
      have hC'len : (setEntry (C ++ [zeroRow df.length]) (runIdxD df (k - 1) + 1) k
          (rowAt df k).share_price).length = runIdxD df (k - 1) + 2 := by
        rw [length_setEntry, List.length_append, hlen]
        rfl
      have happrows : ∀ r ∈ C ++ [zeroRow df.length], r.length = df.length := by
        intro r hr
        rcases List.mem_append.mp hr with h | h
        · exact hrows r h
        · rw [List.mem_singleton.mp h, zeroRow, List.length_replicate]
      have hgetz : (C ++ [zeroRow df.length]).getD (runIdxD df (k - 1) + 1) [] =
          zeroRow df.length := by
        have := getD_append_at_length C (zeroRow df.length) ([] : List ℚ)
        rw [hlen] at this
        exact this
      have hC'rows : ∀ r ∈ setEntry (C ++ [zeroRow df.length])
          (runIdxD df (k - 1) + 1) k (rowAt df k).share_price, r.length = df.length :=
        rows_setEntry _ _ _ _ _
          (by rw [List.length_append, hlen]; simp only [List.length_singleton]; omega)
          happrows
      have hC'ent : ∀ b j, entry (setEntry (C ++ [zeroRow df.length])
          (runIdxD df (k - 1) + 1) k (rowAt df k).share_price) b j =
          if j < k + 1 ∧ runIdxD df j = b then (rowAt df j).share_price else 0 := by
        intro b j
        by_cases hbj : b = runIdxD df (k - 1) + 1 ∧ j = k
        · obtain ⟨hb, hj⟩ := hbj
          subst hb
          subst hj
          rw [entry_setEntry_self _ _ _ _
            (by rw [List.length_append, hlen]; simp only [List.length_singleton]; omega)
            (by rw [hgetz, zeroRow, List.length_replicate]; exact hklt)]
          rw [if_pos ⟨by omega, hrun⟩]
        · rw [entry_setEntry_ne _ _ _ _ _ _
            (by rcases not_and_or.mp hbj with h | h
                · exact Or.inl h
                · exact Or.inr h)]
          rcases Nat.lt_or_ge b (runIdxD df (k - 1) + 1) with hble | hbge
          · rw [entry, getD_append_left _ _ _ _ (by rw [hlen]; exact hble)]
            rw [show ((C.getD b []).getD j 0) = entry C b j from rfl, hent b j]
            refine if_congr ⟨fun h => ⟨by omega, h.2⟩, fun h => ⟨?_, h.2⟩⟩ rfl rfl
            rcases Nat.lt_or_ge j k with h2 | h2
            · exact h2
            · exfalso
              have hjk : j = k := by omega
              rw [hjk, hrun] at h
              omega
          · rcases Nat.eq_or_lt_of_le hbge with hbeq | hblt
            · have hb : b = runIdxD df (k - 1) + 1 := hbeq.symm
              subst hb
              have hjk : j ≠ k := fun e => hbj ⟨rfl, e⟩
              rw [entry, hgetz, zeroRow, getD_replicate, ite_self]
              have hne : ¬(j < k + 1 ∧
                  runIdxD df j = runIdxD df (k - 1) + 1) := by
                rintro ⟨hjlt, hrj⟩
                have hjle : j ≤ k - 1 := by omega
                have := runIdxD_mono df j (k - 1) hjle
                omega
              rw [if_neg hne]
            · rw [entry, getD_out_of_range (C ++ [zeroRow df.length]) b []
                (by rw [List.length_append, hlen]
                    simp only [List.length_singleton]
                    omega)]
              have hne : ¬(j < k + 1 ∧ runIdxD df j = b) := by
                rintro ⟨hjlt, hrj⟩
                have hjle : j ≤ k := by omega
                have := runIdxD_mono df j k hjle
                omega
              rw [if_neg hne]
              rfl
      rw [← hrun] at hC'len hC'rows hC'ent
      rw [← hrun]
      exact ih (k + 1) _ (by omega) (by omega) (by omega)
        (by rw [hC'len]
            show runIdxD df (k - 1) + 2 = runIdxD df k + 1
            omega)
        hC'rows hC'ent
    · rw [if_neg hchg]
      have hleq : (rowAt df k).account_name = (rowAt df (k - 1)).account_name := by
        by_contra h
        exact hchg h
      have hrun : runIdxD df k = runIdxD df (k - 1) := by
        rw [hrunstep, if_neg hchg]
        omega
      have hC'len : (setEntry C (runIdxD df (k - 1)) k
          (rowAt df k).share_price).length = runIdxD df (k - 1) + 1 := by
        rw [length_setEntry, hlen]
      have haC : runIdxD df (k - 1) < C.length := by
        rw [hlen]
        omega
      have hC'rows : ∀ r ∈ setEntry C (runIdxD df (k - 1)) k
          (rowAt df k).share_price, r.length = df.length :=
        rows_setEntry _ _ _ _ _ haC hrows
      have hC'ent : ∀ b j, entry (setEntry C (runIdxD df (k - 1)) k
          (rowAt df k).share_price) b j =
          if j < k + 1 ∧ runIdxD df j = b then (rowAt df j).share_price else 0 := by
        intro b j
        by_cases hbj : b = runIdxD df (k - 1) ∧ j = k
        · obtain ⟨hb, hj⟩ := hbj
          subst hb
          subst hj
          rw [entry_setEntry_self _ _ _ _ haC
            (by rw [hrows _ (mem_getD_of_lt C _ [] haC)]; exact hklt)]
          rw [if_pos ⟨by omega, hrun⟩]
        · rw [entry_setEntry_ne _ _ _ _ _ _
            (by rcases not_and_or.mp hbj with h | h
                · exact Or.inl h
                · exact Or.inr h), hent b j]
          refine if_congr ⟨fun h => ⟨by omega, h.2⟩, fun h => ⟨?_, h.2⟩⟩ rfl rfl
          rcases Nat.lt_or_ge j k with h2 | h2
          · exact h2
          · exfalso
            have hjk : j = k := by omega
            rw [hjk, hrun] at h
            exact (not_and_or.mp hbj).elim (fun h3 => h3 h.2.symm)
              (fun h3 => h3 hjk)
      rw [← hrun] at hC'len hC'rows hC'ent
      rw [← hrun, ← hleq]
      exact ih (k + 1) _ (by omega) (by omega) (by omega)
        (by rw [hC'len]
            show runIdxD df k + 1 = runIdxD df k + 1
            rfl)
        hC'rows hC'ent

/-- Table-level characterization of Portfolio._get_linear_constraint: one
coefficient row per run of account names, entries indexed by run, zero equality
bounds sized by the number of distinct account names. -/
theorem linear_constraint_spec (df : Table) (hne : df ≠ []) :
    (_get_linear_constraint df).coefficients.length = runIdxD df (df.length - 1) + 1 ∧
    (∀ r ∈ (_get_linear_constraint df).coefficients, r.length = df.length) ∧
    (∀ b j, entry (_get_linear_constraint df).coefficients b j =
      if j < df.length ∧ runIdxD df j = b then (rowAt df j).share_price else 0) ∧
    (_get_linear_constraint df).lb =
      List.replicate ((df.map (fun r => r.account_name)).dedup.length) 0 ∧
    (_get_linear_constraint df).ub =
      List.replicate ((df.map (fun r => r.account_name)).dedup.length) 0 := by
  cases df with
  | nil => exact absurd rfl hne
  | cons row0 rest =>
    have hn1 : 1 ≤ (row0 :: rest).length := by simp
    have hC0rows : ∀ r ∈ setEntry [zeroRow (row0 :: rest).length] 0 0
        row0.share_price, r.length = (row0 :: rest).length := by
      refine rows_setEntry _ _ _ _ _ (by simp) ?_
      intro r hr
      rw [List.mem_singleton.mp hr, zeroRow, List.length_replicate]
    have hC0ent : ∀ b j, entry (setEntry [zeroRow (row0 :: rest).length] 0 0
        row0.share_price) b j =
        if j < 1 ∧ runIdxD (row0 :: rest) j = b then
          (rowAt (row0 :: rest) j).share_price
        else 0 := by
      intro b j
      by_cases hbj : b = 0 ∧ j = 0
      · obtain ⟨hb, hj⟩ := hbj
        subst hb
        subst hj
        rw [entry_setEntry_self _ _ _ _ (by simp)
          (by show 0 < (zeroRow (row0 :: rest).length).length
              rw [zeroRow, List.length_replicate]
              simp)]
        rw [if_pos ⟨by omega, rfl⟩]
        rfl
      · rw [entry_setEntry_ne _ _ _ _ _ _
          (by rcases not_and_or.mp hbj with h | h
              · exact Or.inl h
              · exact Or.inr h)]
        have hne2 : ¬(j < 1 ∧ runIdxD (row0 :: rest) j = b) := by
          rintro ⟨hj1, hrj⟩
          have hj0 : j = 0 := by omega
          rw [hj0] at hrj
          exact hbj ⟨by rw [← hrj]; rfl, hj0⟩
        rw [if_neg hne2]
        cases b with
        | zero =>
          rw [entry]
          have hz : ([zeroRow (row0 :: rest).length] : List (List ℚ)).getD 0 [] =
              zeroRow (row0 :: rest).length := rfl
          rw [hz, zeroRow, getD_replicate, ite_self]
        | succ b2 =>
          rw [entry, getD_out_of_range ([zeroRow (row0 :: rest).length]) (b2 + 1) []
            (by simp)]
          rfl
    have hspec := constraintGo_spec (row0 :: rest) ((row0 :: rest).length - 1) 1
      (setEntry [zeroRow (row0 :: rest).length] 0 0 row0.share_price)
      rfl (le_refl 1) hn1 (by rw [length_setEntry]; rfl) hC0rows hC0ent
    exact ⟨hspec.1, hspec.2.1, hspec.2.2, rfl, rfl⟩

/-! ### Portfolio data model and _build_dataframe -/

/-- investment.Investment: the fields the core reads. -/
structure Investment where
  ticker_symbol : String
  asset_class : AssetClass
  name : String
  num_shares : ℚ
  share_price : ℚ
  deriving DecidableEq, Repr

/-- account.Account as consumed by Portfolio: name, institution, taxable flag and
the ordered holdings list. -/
structure PAccount where
  name : String
  institution : String
  is_taxable : Bool
  holdings : List Investment
  deriving DecidableEq, Repr

/-- Investment.value = num_shares * share_price (derived, never stored). -/
def Investment.value (h : Investment) : ℚ := h.num_shares * h.share_price

/-- Portfolio._build_dataframe: one row per (account, holding) pair in account
order then holding order. -/
def buildDataframe (accounts : List PAccount) : Table :=
  (accounts.map (fun acc => acc.holdings.map (fun holding =>
    ⟨acc.name, acc.institution, holding.name, holding.asset_class,
     holding.ticker_symbol, holding.share_price, holding.num_shares,
     holding.num_shares * holding.share_price⟩))).flatten

theorem map_const_replicate {α : Type} (l : List α) (s : String) :
    l.map (fun _ => s) = List.replicate l.length s := by
  induction l with
  | nil => rfl
  | cons x xs ih => simp [List.replicate, ih]

theorem names_buildDataframe (accounts : List PAccount) :
    (buildDataframe accounts).map (fun r => r.account_name) =
      (accounts.map (fun a => List.replicate a.holdings.length a.name)).flatten := by
  induction accounts with
  | nil => rfl
  | cons a rest ih =>
    have hstep : buildDataframe (a :: rest) =
        (a.holdings.map (fun holding =>
          (⟨a.name, a.institution, holding.name, holding.asset_class,
            holding.ticker_symbol, holding.share_price, holding.num_shares,
            holding.num_shares * holding.share_price⟩ : Row))) ++
          buildDataframe rest := rfl
    rw [hstep, List.map_append, ih, List.map_map]
    have hconst : (a.holdings.map ((fun r : Row => r.account_name) ∘ (fun holding =>
        (⟨a.name, a.institution, holding.name, holding.asset_class,
          holding.ticker_symbol, holding.share_price, holding.num_shares,
          holding.num_shares * holding.share_price⟩ : Row)))) =
        List.replicate a.holdings.length a.name :=
      map_const_replicate a.holdings a.name
    rw [hconst]
    rfl

theorem dedupAdj_replicate_append (k : Nat) (hk : 1 ≤ k) (s : String)
    (l : List String) :
    dedupAdj (List.replicate k s ++ l) = dedupAdj (s :: l) := by
  induction k with
  | zero => omega
  | succ k2 ih =>
    cases k2 with
    | zero => rfl
    | succ k3 =>
      show dedupAdj (s :: s :: (List.replicate k3 s ++ l)) = _
      have hstep : dedupAdj (s :: s :: (List.replicate k3 s ++ l)) =
          dedupAdj (s :: (List.replicate k3 s ++ l)) := by
        show (if s = s then dedupAdj (s :: (List.replicate k3 s ++ l))
          else s :: dedupAdj (s :: (List.replicate k3 s ++ l))) = _
        rw [if_pos rfl]
      rw [hstep]
      exact ih (by omega)

theorem dedupAdj_cons_sublist (s : String) (l : List String) :
    (dedupAdj (s :: l)).Sublist (s :: dedupAdj l) := by
  cases l with
  | nil => exact List.Sublist.refl _
  | cons b t =>
    show (if b = s then dedupAdj (b :: t) else s :: dedupAdj (b :: t)).Sublist _
    by_cases hbs : b = s
    · rw [if_pos hbs]
      exact List.sublist_cons_self s (dedupAdj (b :: t))
    · rw [if_neg hbs]

theorem dedupAdj_buildDataframe_sublist (accounts : List PAccount) :
    (dedupAdj ((buildDataframe accounts).map (fun r => r.account_name))).Sublist
      (accounts.map (fun a => a.name)) := by
  induction accounts with
  | nil => exact List.Sublist.refl _
  | cons a rest ih =>
    rw [names_buildDataframe] at ih ⊢
    show (dedupAdj ((List.replicate a.holdings.length a.name) ++
      (rest.map (fun a => List.replicate a.holdings.length a.name)).flatten)).Sublist _
    cases hk : a.holdings.length with
    | zero =>
      show (dedupAdj (List.replicate 0 a.name ++ _)).Sublist _
      exact List.Sublist.trans ih (List.sublist_cons_self a.name _)
    | succ k2 =>
      rw [dedupAdj_replicate_append (k2 + 1) (by omega) a.name _]
      exact List.Sublist.trans (dedupAdj_cons_sublist a.name _)
        (List.Sublist.cons₂ a.name ih)

theorem dedup_length_eq_dedupAdj (l : List String) (h : (dedupAdj l).Nodup) :
    l.dedup.length = (dedupAdj l).length := by
  have h1 : l.dedup.length = l.toFinset.card := (List.card_toFinset l).symm
  have h2 : (dedupAdj l).toFinset = l.toFinset := by
    ext x
    simp [List.mem_toFinset, mem_dedupAdj]
  have h3 : (dedupAdj l).toFinset.card = (dedupAdj l).length :=
    List.toFinset_card_of_nodup h
  rw [h1, ← h2, h3]

/-- numpy-style inner product of two coefficient vectors. -/
def dot (u v : List ℚ) : ℚ := (List.zipWith (fun a b => a * b) u v).sum

theorem dot_eq_sum (u v : List ℚ) (n : Nat) (hu : u.length = n) (hv : v.length = n) :
    dot u v = ∑ i ∈ Finset.range n, u.getD i 0 * v.getD i 0 := by
  induction n generalizing u v with
  | zero => simp [dot, List.length_eq_zero.mp hu, List.length_eq_zero.mp hv]
  | succ m ih =>
    cases u with
    | nil => simp at hu
    | cons a u2 =>
      cases v with
      | nil => simp at hv
      | cons b v2 =>
        rw [Finset.sum_range_succ']
        have hgd : ∀ i : Nat, (a :: u2).getD (i + 1) 0 * (b :: v2).getD (i + 1) 0 =
            u2.getD i 0 * v2.getD i 0 := fun i => rfl
        have hsum : (∑ i ∈ Finset.range m,
            (a :: u2).getD (i + 1) 0 * (b :: v2).getD (i + 1) 0) =
            ∑ i ∈ Finset.range m, u2.getD i 0 * v2.getD i 0 :=
          Finset.sum_congr rfl (fun i _ => hgd i)
        rw [hsum, ← ih u2 v2 (by simpa using hu) (by simpa using hv)]
        show dot (a :: u2) (b :: v2) = dot u2 v2 + a * b
        rw [dot, dot, List.zipWith_cons_cons, List.sum_cons]
        ring

theorem mem_exists_getD {α : Type} (l : List α) (x : α) (d : α) (h : x ∈ l) :
    ∃ i, i < l.length ∧ l.getD i d = x := by
  induction l with
  | nil => simp at h
  | cons y t ih =>
    rcases List.mem_cons.mp h with rfl | h2
    · exact ⟨0, by simp, rfl⟩
    · obtain ⟨i, hi, hgd⟩ := ih h2
      exact ⟨i + 1, by simpa using hi, hgd⟩

/-- C2: for a portfolio with unique account names (rows grouped contiguously by
account), the linear constraint has exactly one coefficient row per account, entry
(a, i) is row i's share price when row i belongs to the a-th account and 0
otherwise, both bounds are identically 0, and hence any feasible trade vector
conserves cash within every account. -/
theorem claim_C2 (accounts : List PAccount)
    (hnodup : (accounts.map (fun a => a.name)).Nodup)
    (hne : buildDataframe accounts ≠ []) :
    (_get_linear_constraint (buildDataframe accounts)).coefficients.length =
      (dedupAdj ((buildDataframe accounts).map (fun r => r.account_name))).length ∧
    (_get_linear_constraint (buildDataframe accounts)).lb =
      List.replicate
        (dedupAdj ((buildDataframe accounts).map (fun r => r.account_name))).length 0 ∧
    (_get_linear_constraint (buildDataframe accounts)).ub =
      List.replicate
        (dedupAdj ((buildDataframe accounts).map (fun r => r.account_name))).length 0 ∧
    (∀ a i,
      a < (dedupAdj ((buildDataframe accounts).map (fun r => r.account_name))).length →
      i < (buildDataframe accounts).length →
      entry (_get_linear_constraint (buildDataframe accounts)).coefficients a i =
        if (rowAt (buildDataframe accounts) i).account_name =
            (dedupAdj ((buildDataframe accounts).map (fun r => r.account_name))).getD
              a "" then
          (rowAt (buildDataframe accounts) i).share_price
        else 0) ∧
    (∀ x : List ℚ, x.length = (buildDataframe accounts).length →
      (∀ b, b < (_get_linear_constraint (buildDataframe accounts)).coefficients.length →
        (_get_linear_constraint (buildDataframe accounts)).lb.getD b 0 ≤
          dot ((_get_linear_constraint (buildDataframe accounts)).coefficients.getD
            b []) x ∧
        dot ((_get_linear_constraint (buildDataframe accounts)).coefficients.getD
          b []) x ≤
          (_get_linear_constraint (buildDataframe accounts)).ub.getD b 0) →
      ∀ acct ∈ (buildDataframe accounts).map (fun r => r.account_name),
        (∑ i ∈ Finset.range (buildDataframe accounts).length,
          if (rowAt (buildDataframe accounts) i).account_name = acct then
            (rowAt (buildDataframe accounts) i).share_price * x.getD i 0
          else 0) = 0) := by
  have hgrp : (dedupAdj ((buildDataframe accounts).map
      (fun r => r.account_name))).Nodup :=
    List.Nodup.sublist (dedupAdj_buildDataframe_sublist accounts) hnodup
  obtain ⟨hclen, hcrows, hcent, hlb, hub⟩ :=
    linear_constraint_spec (buildDataframe accounts) hne
  have hnames_ne : (buildDataframe accounts).map (fun r => r.account_name) ≠ [] := by
    intro h
    exact hne (List.map_eq_nil_iff.mp h)
  have hAlen : (dedupAdj ((buildDataframe accounts).map
      (fun r => r.account_name))).length =
      runIdxD (buildDataframe accounts) ((buildDataframe accounts).length - 1) + 1 := by
    rw [dedupAdj_length _ hnames_ne, List.length_map, ← runIdxD_eq_runIdxL]
  have hdedupL : ((buildDataframe accounts).map
      (fun r => r.account_name)).dedup.length =
      (dedupAdj ((buildDataframe accounts).map (fun r => r.account_name))).length :=
    dedup_length_eq_dedupAdj _ hgrp
  have hAat : ∀ i, i < (buildDataframe accounts).length →
      (dedupAdj ((buildDataframe accounts).map (fun r => r.account_name))).getD
        (runIdxD (buildDataframe accounts) i) "" =
      (rowAt (buildDataframe accounts) i).account_name := by
    intro i hi
    rw [runIdxD_eq_runIdxL]
    have h := dedupAdj_runIdxL ((buildDataframe accounts).map (fun r => r.account_name))
      i (by rw [List.length_map]; exact hi)
    rw [h]
    exact getD_map (fun r => r.account_name) (buildDataframe accounts) i default
  have hrunlt : ∀ i, i < (buildDataframe accounts).length →
      runIdxD (buildDataframe accounts) i <
      (dedupAdj ((buildDataframe accounts).map (fun r => r.account_name))).length := by
    intro i hi
    have := runIdxD_mono (buildDataframe accounts) i
      ((buildDataframe accounts).length - 1) (by omega)
    omega
  refine ⟨by rw [hclen, hAlen], by rw [hlb, hdedupL], by rw [hub, hdedupL], ?_, ?_⟩
  · intro a i ha hi
    rw [hcent a i]
    refine if_congr ⟨?_, ?_⟩ rfl rfl
    · rintro ⟨-, hrun⟩
      rw [← hrun, hAat i hi]
    · intro hname
      refine ⟨hi, ?_⟩
      refine nodup_getD_inj _ hgrp _ _ (hrunlt i hi) ha ?_
      rw [hAat i hi, hname]
  · intro x hx hfeas acct hacct
    obtain ⟨i0, hi0lt, hi0eq⟩ := mem_exists_getD _ acct "" hacct
    have hi0n : i0 < (buildDataframe accounts).length := by
      rw [List.length_map] at hi0lt
      exact hi0lt
    have hname_i0 : (rowAt (buildDataframe accounts) i0).account_name = acct := by
      have h2 := getD_map (fun r => r.account_name) (buildDataframe accounts) i0 default
      exact h2.symm.trans hi0eq
    have hblt : runIdxD (buildDataframe accounts) i0 <
        (_get_linear_constraint (buildDataframe accounts)).coefficients.length := by
      rw [hclen]
      have := runIdxD_mono (buildDataframe accounts) i0
        ((buildDataframe accounts).length - 1) (by omega)
      omega
    have hfz := hfeas _ hblt
    have hlbz : (_get_linear_constraint (buildDataframe accounts)).lb.getD
        (runIdxD (buildDataframe accounts) i0) 0 = 0 := by
      rw [hlb, getD_replicate,
        if_pos (by rw [hdedupL, hAlen]; rw [hclen] at hblt; omega)]
    have hubz : (_get_linear_constraint (buildDataframe accounts)).ub.getD
        (runIdxD (buildDataframe accounts) i0) 0 = 0 := by
      rw [hub, getD_replicate,
        if_pos (by rw [hdedupL, hAlen]; rw [hclen] at hblt; omega)]
    have hdotz : dot ((_get_linear_constraint (buildDataframe accounts)).coefficients.getD
        (runIdxD (buildDataframe accounts) i0) []) x = 0 := by
      rw [hlbz] at hfz
      rw [hubz] at hfz
      exact le_antisymm hfz.2 hfz.1
    have hrowlen : ((_get_linear_constraint (buildDataframe accounts)).coefficients.getD
        (runIdxD (buildDataframe accounts) i0) []).length =
        (buildDataframe accounts).length :=
      hcrows _ (mem_getD_of_lt _ _ [] hblt)
    rw [dot_eq_sum _ x (buildDataframe accounts).length hrowlen hx] at hdotz
    have habacct : (dedupAdj ((buildDataframe accounts).map
        (fun r => r.account_name))).getD (runIdxD (buildDataframe accounts) i0) "" =
        acct := by
      rw [hAat i0 hi0n, hname_i0]
    have hsum : (∑ i ∈ Finset.range (buildDataframe accounts).length,
        if (rowAt (buildDataframe accounts) i).account_name = acct then
          (rowAt (buildDataframe accounts) i).share_price * x.getD i 0
        else 0) =
        ∑ i ∈ Finset.range (buildDataframe accounts).length,
          ((_get_linear_constraint (buildDataframe accounts)).coefficients.getD
            (runIdxD (buildDataframe accounts) i0) []).getD i 0 * x.getD i 0 := by
      refine Finset.sum_congr rfl (fun i hi => ?_)
      have hin : i < (buildDataframe accounts).length := Finset.mem_range.mp hi
      have hterm : ((_get_linear_constraint (buildDataframe accounts)).coefficients.getD
          (runIdxD (buildDataframe accounts) i0) []).getD i 0 =
          entry (_get_linear_constraint (buildDataframe accounts)).coefficients
            (runIdxD (buildDataframe accounts) i0) i := rfl
      rw [hterm, hcent _ i, ite_mul, zero_mul]
      refine if_congr ⟨?_, ?_⟩ rfl rfl
      · intro hname
        refine ⟨hin, ?_⟩
        refine nodup_getD_inj _ hgrp _ _ (hrunlt i hin) (hrunlt i0 hi0n) ?_
        rw [hAat i hin, hname, habacct]
      · rintro ⟨-, hrun⟩
        rw [← hAat i hin, hrun, habacct]
    rw [hsum]
    exact hdotz

/-- A two-account portfolio for concrete checks: a taxable account holding a stock
and cash, and a one-holding IRA. -/
def wAccounts : List PAccount :=
  [⟨"Joint WROS", "Fidelity", true,
     [⟨"CRISX", AssetClass.SMALL_CAP, "Small Cap Value", 500, 10⟩,
      ⟨"CASH", AssetClass.CASH, "Money Market", 5000, 1⟩]⟩,
   ⟨"INDIVIDUAL IRA", "Vanguard", false,
     [⟨"VNQ", AssetClass.REAL_ESTATE, "Vanguard Real Estate", 2000, 10⟩]⟩]

/-- Witness for C2: the trade vector (1, -10, 0) satisfies both account
constraints, so the taxable account's trades net to zero dollars. -/
theorem claim_C2_witness :
    (∑ i ∈ Finset.range (buildDataframe wAccounts).length,
      if (rowAt (buildDataframe wAccounts) i).account_name = "Joint WROS" then
        (rowAt (buildDataframe wAccounts) i).share_price *
          ([1, -10, 0] : List ℚ).getD i 0
      else 0) = 0 := by
  have h := claim_C2 wAccounts (by decide) (by decide)
  refine h.2.2.2.2 [1, -10, 0] (by decide) ?_ "Joint WROS" (by decide)
  intro b hb
  have hco : (_get_linear_constraint (buildDataframe wAccounts)).coefficients =
      [[10, 1, 0], [0, 0, 10]] := by decide
  have hlbv : (_get_linear_constraint (buildDataframe wAccounts)).lb = [0, 0] := by
    decide
  have hubv : (_get_linear_constraint (buildDataframe wAccounts)).ub = [0, 0] := by
    decide
  rw [hco] at hb
  simp only [List.length_cons, List.length_nil] at hb
  rw [hco, hlbv, hubv]
  have hb2 : b = 0 ∨ b = 1 := by omega
  rcases hb2 with rfl | rfl
  · constructor <;> norm_num [dot, List.zipWith]
  · constructor <;> norm_num [dot, List.zipWith]

/-! ### The optimizer objective: _objective_fn / _get_rmse / _get_diff_from_target -/

/-- allocation.Target: a percentage per asset class over a fixed index set (the
dataframe built from the target dictionary). -/
structure Target where
  classes : Finset AssetClass
  pct : AssetClass → ℚ

/-- The asset classes present in the table (the groupby keys of
_get_percentage_allocation). -/
def presentClasses (df : Table) : Finset AssetClass :=
  (df.map (fun r => r.asset_class)).toFinset

/-- One groupby group: the summed value of the rows of one asset class. -/
def classValue (df : Table) (c : AssetClass) : ℚ :=
  ((df.filter (fun r => decide (r.asset_class = c))).map (fun r => r.value)).sum

/-- net_value in _get_percentage_allocation: the sum of the per-class value sums. -/
def netValue (df : Table) : ℚ := ∑ c ∈ presentClasses df, classValue df c

/-- The percentage column of _get_percentage_allocation:
fraction = value / net_value, percentage = fraction * 100. -/
def percentage (df : Table) (c : AssetClass) : ℚ :=
  classValue df c / netValue df * 100

/-- Index of the difference series of _get_diff_from_target: pandas sub aligns on
the union of the target index and the current-allocation index. -/
def diffIndex (df : Table) (t : Target) : Finset AssetClass :=
  t.classes ∪ presentClasses df

/-- One entry of the difference series: target minus current percentage with
fill_value 0 on either side. -/
def diffVal (df : Table) (t : Target) (c : AssetClass) : ℚ :=
  (if c ∈ t.classes then t.pct c else 0) -
    (if c ∈ presentClasses df then percentage df c else 0)

/-- The square of _get_rmse: sum of squared differences over the series index,
divided by the index length (the sqrt is applied at the theorem level, mirroring
math.sqrt). -/
def _get_mse (df : Table) (t : Target) : ℚ :=
  (∑ c ∈ diffIndex df t, diffVal df t c ^ 2) / (diffIndex df t).card

/-- The candidate table of _objective_fn: num_shares += x (positional alignment),
value recomputed as num_shares * share_price. -/
def updateShares (df : Table) (x : List ℚ) : Table :=
  (List.range df.length).map (fun i =>
    { rowAt df i with
        num_shares := (rowAt df i).num_shares + x.getD i 0,
        value := ((rowAt df i).num_shares + x.getD i 0) * (rowAt df i).share_price })

/-- _objective_fn composed with squaring: the solver objective is the square root
of this quantity. -/
def _objective_fn_sq (df : Table) (t : Target) (x : List ℚ) : ℚ :=
  _get_mse (updateShares df x) t

theorem length_updateShares (df : Table) (x : List ℚ) :
    (updateShares df x).length = df.length := by
  rw [updateShares, List.length_map, List.length_range]

theorem rowAt_updateShares (df : Table) (x : List ℚ) (i : Nat) (hi : i < df.length) :
    rowAt (updateShares df x) i =
      { rowAt df i with
          num_shares := (rowAt df i).num_shares + x.getD i 0,
          value := ((rowAt df i).num_shares + x.getD i 0) * (rowAt df i).share_price } := by
  rw [rowAt, updateShares]
  have h := getD_map_range df.length i (fun i =>
    ({ rowAt df i with
        num_shares := (rowAt df i).num_shares + x.getD i 0,
        value := ((rowAt df i).num_shares + x.getD i 0) * (rowAt df i).share_price } :
      Row)) default
  rw [h, if_pos hi]

theorem map_range_rowAt {β : Type} (df : Table) (f : Row → β) :
    (List.range df.length).map (fun i => f (rowAt df i)) = df.map f := by
  induction df with
  | nil => rfl
  | cons r t ih =>
    show (List.range (t.length + 1)).map _ = _
    rw [List.range_succ_eq_map, List.map_cons, List.map_map]
    show f (rowAt (r :: t) 0) :: (List.range t.length).map
      ((fun i => f (rowAt (r :: t) i)) ∘ Nat.succ) = f r :: t.map f
    have hcomp : ((fun i => f (rowAt (r :: t) i)) ∘ Nat.succ) =
        fun i => f (rowAt t i) := rfl
    rw [hcomp, ih]
    rfl

theorem classes_updateShares (df : Table) (x : List ℚ) :
    presentClasses (updateShares df x) = presentClasses df := by
  rw [presentClasses, presentClasses, updateShares, List.map_map]
  have h : ((fun r : Row => r.asset_class) ∘ (fun i =>
      ({ rowAt df i with
          num_shares := (rowAt df i).num_shares + x.getD i 0,
          value := ((rowAt df i).num_shares + x.getD i 0) *
            (rowAt df i).share_price } : Row))) =
      fun i => (rowAt df i).asset_class := rfl
  rw [h, map_range_rowAt df (fun r => r.asset_class)]

theorem filter_map_sum_eq (df : Table) (p : Row → Bool) (f : Row → ℚ) :
    ((df.filter p).map f).sum =
      ∑ i ∈ Finset.range df.length,
        if p (rowAt df i) then f (rowAt df i) else 0 := by
  induction df with
  | nil => simp
  | cons r t ih =>
    rw [show (r :: t).length = t.length + 1 from rfl, Finset.sum_range_succ']
    have hshift : (∑ i ∈ Finset.range t.length,
        if p (rowAt (r :: t) (i + 1)) then f (rowAt (r :: t) (i + 1)) else 0) =
        ∑ i ∈ Finset.range t.length, if p (rowAt t i) then f (rowAt t i) else 0 :=
      Finset.sum_congr rfl (fun i _ => rfl)
    rw [hshift, ← ih]
    show ((List.filter p (r :: t)).map f).sum = _
    rw [List.filter_cons]
    by_cases hp : p r
    · rw [if_pos hp, List.map_cons, List.sum_cons]
      have h0 : (if p (rowAt (r :: t) 0) then f (rowAt (r :: t) 0) else 0) = f r := by
        show (if p r then f r else 0) = f r
        rw [if_pos hp]
      rw [h0]
      ring
    · rw [if_neg hp]
      have h0 : (if p (rowAt (r :: t) 0) then f (rowAt (r :: t) 0) else 0) = 0 := by
        show (if p r then f r else 0) = 0
        rw [if_neg hp]
      rw [h0, add_zero]

theorem classValue_eq_zero_of_not_mem (df : Table) (c : AssetClass)
    (h : c ∉ presentClasses df) : classValue df c = 0 := by
  rw [classValue]
  have hfil : df.filter (fun r => decide (r.asset_class = c)) = [] := by
    rw [List.filter_eq_nil_iff]
    intro r hr he
    apply h
    rw [presentClasses, List.mem_toFinset]
    exact List.mem_map.mpr ⟨r, hr, of_decide_eq_true he⟩
  rw [hfil]
  rfl

theorem groupSum_eq_total (df : Table) :
    (∑ c ∈ presentClasses df, classValue df c) = (df.map (fun r => r.value)).sum := by
  induction df with
  | nil => rfl
  | cons r t ih =>
    have hpres : presentClasses (r :: t) = insert r.asset_class (presentClasses t) := by
      rw [presentClasses, presentClasses, List.map_cons, List.toFinset_cons]
    have hcv : ∀ c, classValue (r :: t) c =
        (if r.asset_class = c then r.value else 0) + classValue t c := by
      intro c
      rw [classValue, classValue]
      show ((List.filter _ (r :: t)).map _).sum = _
      rw [List.filter_cons]
      by_cases hp : r.asset_class = c
      · rw [if_pos (by exact decide_eq_true hp), List.map_cons, List.sum_cons,
          if_pos hp]
      · rw [if_neg (by simpa using hp), if_neg hp, zero_add]
    rw [hpres]
    rw [Finset.sum_congr rfl (fun c _ => hcv c), Finset.sum_add_distrib]
    have h1 : (∑ c ∈ insert r.asset_class (presentClasses t),
        if r.asset_class = c then r.value else 0) = r.value := by
      rw [Finset.sum_ite_eq]
      rw [if_pos (Finset.mem_insert_self _ _)]
    have h2 : (∑ c ∈ insert r.asset_class (presentClasses t), classValue t c) =
        ∑ c ∈ presentClasses t, classValue t c := by
      by_cases hmem : r.asset_class ∈ presentClasses t
      · rw [Finset.insert_eq_self.mpr hmem]
      · rw [Finset.sum_insert hmem,
          classValue_eq_zero_of_not_mem t r.asset_class hmem, zero_add]
    rw [h1, h2, ih]
    rfl

theorem map_sum_eq_range (df : Table) (f : Row → ℚ) :
    (df.map f).sum = ∑ i ∈ Finset.range df.length, f (rowAt df i) := by
  induction df with
  | nil => simp
  | cons r t ih =>
    rw [List.map_cons, List.sum_cons,
      show (r :: t).length = t.length + 1 from rfl, Finset.sum_range_succ']
    have hshift : (∑ i ∈ Finset.range t.length, f (rowAt (r :: t) (i + 1))) =
        ∑ i ∈ Finset.range t.length, f (rowAt t i) :=
      Finset.sum_congr rfl (fun i _ => rfl)
    rw [hshift, ← ih]
    show f r + (t.map f).sum = (t.map f).sum + f (rowAt (r :: t) 0)
    show f r + (t.map f).sum = (t.map f).sum + f r
    ring

/-- C1: the optimizer objective is the root-mean-square of the signed per-class
differences between target percentage and candidate percentage, over the union of
the classes present in the target or in the candidate holdings, with a missing
class contributing 0, the candidate percentages being derived from the values
(shares_i + x_i) * price_i. -/
theorem claim_C1 (df : Table) (t : Target) (x : List ℚ)
    (_hx : x.length = df.length) :
    Real.sqrt ((_objective_fn_sq df t x : ℚ) : ℝ) =
    Real.sqrt ((((∑ c ∈ t.classes ∪ (df.map (fun r => r.asset_class)).toFinset,
        ((if c ∈ t.classes then t.pct c else 0) -
          (if c ∈ (df.map (fun r => r.asset_class)).toFinset then
            100 * (∑ i ∈ Finset.range df.length,
              if (rowAt df i).asset_class = c then
                ((rowAt df i).num_shares + (x).getD i 0) * (rowAt df i).share_price
              else 0) /
              ∑ i ∈ Finset.range df.length,
                ((rowAt df i).num_shares + (x).getD i 0) * (rowAt df i).share_price
          else 0)) ^ 2) /
      (t.classes ∪ (df.map (fun r => r.asset_class)).toFinset).card : ℚ) : ℝ)) := by
  have hpres : presentClasses (updateShares df x) =
      (df.map (fun r => r.asset_class)).toFinset := classes_updateShares df x
  have hidx : diffIndex (updateShares df x) t =
      t.classes ∪ (df.map (fun r => r.asset_class)).toFinset := by
    rw [diffIndex, hpres]
  have hS : ∀ c, classValue (updateShares df x) c =
      ∑ i ∈ Finset.range df.length,
        if (rowAt df i).asset_class = c then
          ((rowAt df i).num_shares + x.getD i 0) * (rowAt df i).share_price
        else 0 := by
    intro c
    rw [classValue, filter_map_sum_eq, length_updateShares]
    refine Finset.sum_congr rfl (fun i hi => ?_)
    rw [rowAt_updateShares df x i (Finset.mem_range.mp hi)]
    exact if_congr ⟨fun h => of_decide_eq_true h, fun h => decide_eq_true h⟩ rfl rfl
  have hN : netValue (updateShares df x) =
      ∑ i ∈ Finset.range df.length,
        ((rowAt df i).num_shares + x.getD i 0) * (rowAt df i).share_price := by
    rw [netValue, groupSum_eq_total, map_sum_eq_range, length_updateShares]
    refine Finset.sum_congr rfl (fun i hi => ?_)
    rw [rowAt_updateShares df x i (Finset.mem_range.mp hi)]
  have hdv : ∀ c, diffVal (updateShares df x) t c =
      (if c ∈ t.classes then t.pct c else 0) -
        (if c ∈ (df.map (fun r => r.asset_class)).toFinset then
          100 * (∑ i ∈ Finset.range df.length,
            if (rowAt df i).asset_class = c then
              ((rowAt df i).num_shares + x.getD i 0) * (rowAt df i).share_price
            else 0) /
            ∑ i ∈ Finset.range df.length,
              ((rowAt df i).num_shares + x.getD i 0) * (rowAt df i).share_price
        else 0) := by
    intro c
    rw [diffVal, hpres]
    congr 1
    refine if_congr Iff.rfl ?_ rfl
    rw [percentage, hS c, hN, div_mul_eq_mul_div, mul_comm]
  have hq : _objective_fn_sq df t x =
      ((∑ c ∈ t.classes ∪ (df.map (fun r => r.asset_class)).toFinset,
        ((if c ∈ t.classes then t.pct c else 0) -
          (if c ∈ (df.map (fun r => r.asset_class)).toFinset then
            100 * (∑ i ∈ Finset.range df.length,
              if (rowAt df i).asset_class = c then
                ((rowAt df i).num_shares + (x).getD i 0) * (rowAt df i).share_price
              else 0) /
              ∑ i ∈ Finset.range df.length,
                ((rowAt df i).num_shares + (x).getD i 0) * (rowAt df i).share_price
          else 0)) ^ 2) /
      (t.classes ∪ (df.map (fun r => r.asset_class)).toFinset).card : ℚ) := by
    rw [_objective_fn_sq, _get_mse, hidx]
    congr 1
    exact Finset.sum_congr rfl (fun c _ => by rw [hdv c])
  rw [hq]

/-- A target for the C1 witness: 100% small cap. -/
def wTarget : Target := ⟨{AssetClass.SMALL_CAP}, fun _ => 100⟩

/-- Witness for C1 at the two-row table, zero trade vector and the 100% small-cap
target. -/
theorem claim_C1_witness :
    Real.sqrt ((_objective_fn_sq miniDf wTarget [0, 0] : ℚ) : ℝ) =
    Real.sqrt ((((∑ c ∈ wTarget.classes ∪ (miniDf.map (fun r => r.asset_class)).toFinset,
        ((if c ∈ wTarget.classes then wTarget.pct c else 0) -
          (if c ∈ (miniDf.map (fun r => r.asset_class)).toFinset then
            100 * (∑ i ∈ Finset.range miniDf.length,
              if (rowAt miniDf i).asset_class = c then
                ((rowAt miniDf i).num_shares + ([(0 : ℚ), 0]).getD i 0) * (rowAt miniDf i).share_price
              else 0) /
              ∑ i ∈ Finset.range miniDf.length,
                ((rowAt miniDf i).num_shares + ([(0 : ℚ), 0]).getD i 0) * (rowAt miniDf i).share_price
          else 0)) ^ 2) /
      (wTarget.classes ∪ (miniDf.map (fun r => r.asset_class)).toFinset).card : ℚ) : ℝ)) :=
  claim_C1 miniDf wTarget [0, 0] (by decide)

/-! ### Transaction derivation (the post-solve loop of _optimize_allocation) -/

/-- portfolio.Transaction. -/
structure Transaction where
  institution : String
  account_name : String
  fund_name : String
  num_shares : ℚ
  deriving DecidableEq, Repr

/-- Round to the nearest integer, ties to even (Python round on exact values). -/
def roundHalfEven (q : ℚ) : ℤ :=
  if q - ⌊q⌋ = 1 / 2 then (if ⌊q⌋ % 2 = 0 then ⌊q⌋ else ⌊q⌋ + 1) else round q

/-- round(q, 2). -/
def round2 (q : ℚ) : ℚ := (roundHalfEven (q * 100) : ℚ) / 100

/-- The transaction-building loop over range(len(solution.x)): keep the holdings
whose |delta| exceeds 1e-02 and emit one Transaction each with the row's
institution, account and fund name and the delta rounded to 2 decimals. -/
def deriveTransactions (df : Table) (x : List ℚ) : List Transaction :=
  ((List.range x.length).filter (fun i => decide (1 / 100 < |x.getD i 0|))).map
    (fun i => ⟨(rowAt df i).institution, (rowAt df i).account_name,
      (rowAt df i).fund_name, round2 (x.getD i 0)⟩)

/-- C7: a solved delta of magnitude at most 0.01 yields no transaction; every delta
of magnitude above 0.01 yields exactly one transaction (in row order) copying the
row's institution, account and fund name with the delta rounded to 2 decimals; in
particular 0.009 is dropped and 0.011 becomes 0.01. -/
theorem claim_C7 (df : Table) (x : List ℚ) (hx : x.length = df.length) :
    (∃ kept : List Nat,
      (∀ i, i ∈ kept ↔ i < df.length ∧ 1 / 100 < |x.getD i 0|) ∧
      kept.Pairwise (· < ·) ∧
      deriveTransactions df x = kept.map (fun i =>
        ⟨(rowAt df i).institution, (rowAt df i).account_name,
         (rowAt df i).fund_name, round2 (x.getD i 0)⟩)) ∧
    (df.length = 1 → deriveTransactions df [9 / 1000] = []) ∧
    (df.length = 1 → deriveTransactions df [11 / 1000] =
      [⟨(rowAt df 0).institution, (rowAt df 0).account_name,
        (rowAt df 0).fund_name, 1 / 100⟩]) := by
  refine ⟨⟨(List.range df.length).filter
    (fun i => decide (1 / 100 < |x.getD i 0|)), ?_, ?_, ?_⟩, ?_, ?_⟩
  · intro i
    rw [List.mem_filter, List.mem_range]
    constructor
    · rintro ⟨h1, h2⟩
      exact ⟨h1, of_decide_eq_true h2⟩
    · rintro ⟨h1, h2⟩
      exact ⟨h1, decide_eq_true h2⟩
  · exact (List.pairwise_lt_range _).filter _
  · rw [deriveTransactions, hx]
  · intro h1
    have hnot : ¬(1 / 100 < |([(9 : ℚ) / 1000]).getD 0 0|) := by
      have : ([(9 : ℚ) / 1000]).getD 0 0 = 9 / 1000 := rfl
      rw [this]
      rw [abs_of_pos (by norm_num)]
      norm_num
    rw [deriveTransactions]
    have hfil : (List.range ([(9 : ℚ) / 1000].length)).filter
        (fun i => decide (1 / 100 < |([(9 : ℚ) / 1000]).getD i 0|)) = [] := by
      show List.filter _ [0] = []
      rw [List.filter_cons, if_neg (by simpa using hnot)]
      rfl
    rw [hfil]
    rfl
  · intro h1
    have hyes : 1 / 100 < |([(11 : ℚ) / 1000]).getD 0 0| := by
      have : ([(11 : ℚ) / 1000]).getD 0 0 = 11 / 1000 := rfl
      rw [this]
      rw [abs_of_pos (by norm_num)]
      norm_num
    rw [deriveTransactions]
    have hfil : (List.range ([(11 : ℚ) / 1000].length)).filter
        (fun i => decide (1 / 100 < |([(11 : ℚ) / 1000]).getD i 0|)) = [0] := by
      show List.filter _ [0] = [0]
      rw [List.filter_cons, if_pos (by simpa using hyes)]
      rfl
    rw [hfil, List.map_cons, List.map_nil]
    have hround : round2 (([(11 : ℚ) / 1000]).getD 0 0) = 1 / 100 := by
      have h0 : ([(11 : ℚ) / 1000]).getD 0 0 = 11 / 1000 := rfl
      rw [h0, round2, roundHalfEven]
      have hfl : ⌊(11 : ℚ) / 1000 * 100⌋ = 1 := by
        rw [show (11 : ℚ) / 1000 * 100 = 11 / 10 by norm_num]
        norm_num
      rw [hfl]
      rw [if_neg (by norm_num)]
      have hr : round ((11 : ℚ) / 1000 * 100) = 1 := by
        rw [round_eq]
        rw [show (11 : ℚ) / 1000 * 100 + 1 / 2 = 16 / 10 by norm_num]
        norm_num
      rw [hr]
      norm_num
    rw [hround]

/-- Witness for C7: the materiality threshold drops 0.009 and rounds 0.011 to 0.01
on the one-row table. -/
theorem claim_C7_witness :
    deriveTransactions soloDf [9 / 1000] = [] ∧
    deriveTransactions soloDf [11 / 1000] =
      [⟨"X", "Solo", "Money Market", 1 / 100⟩] := by
  have h := claim_C7 soloDf [9 / 1000] (by decide)
  have h2 := claim_C7 soloDf [11 / 1000] (by decide)
  refine ⟨h.2.1 (by decide), ?_⟩
  rw [h2.2.2 (by decide)]
  rfl

/-! ### Portfolio._optimize_allocation, allocate_cash and tune -/

/-- The outcome record of scipy.optimize.minimize that the code reads: success,
message and the solution vector x. -/
structure SolveResult where
  success : Bool
  message : String
  x : List ℚ
  deriving DecidableEq, Repr

/-- The two error exits of the optimization path: pandas ValueError from idxmax on
an empty selection, and portfolio.ResultError with its message. -/
inductive AdvizeError where
  | valueError
  | resultError (message : String)
  deriving DecidableEq, Repr

/-- portfolio.Portfolio: the account list (the dataframe is rebuilt from it). -/
structure Portfolio where
  accounts : List PAccount
  deriving DecidableEq, Repr

/-- The projection of a full account to what framing.Context reads. -/
def PAccount.toAccount (a : PAccount) : Account := ⟨a.name, a.is_taxable⟩

/-- An abstract constrained solver: receives the (squared) objective, the initial
guess, the bounds and the linear constraint, and reports a SolveResult. -/
abbrev Solver := (List ℚ → ℚ) → List ℚ → List (ℚ × ℚ) → LinearConstraint →
  SolveResult

/-- The single optimize.minimize invocation made inside _optimize_allocation:
objective, initial guess, bounds and constraint all come from the rebuilt
dataframe. -/
def solverCall (p : Portfolio) (ctx : Context) (t : Target) (solver : Solver)
    (x0 : List ℚ) : SolveResult :=
  solver (_objective_fn_sq (buildDataframe p.accounts) t) x0
    (ctx.get_allocation_bounds (buildDataframe p.accounts)
      (p.accounts.map PAccount.toAccount))
    (_get_linear_constraint (buildDataframe p.accounts))

/-- Portfolio._optimize_allocation: build bounds and initial guess from the
framing context (the idxmax failure propagates), build the per-account constraint,
invoke the solver once, raise ResultError carrying the solver message on failure,
and otherwise derive the transaction list. The method never modifies the
portfolio, which is returned unchanged as the second component. -/
def _optimize_allocation (p : Portfolio) (framing_context : Context) (t : Target)
    (solver : Solver) : Except AdvizeError (List Transaction) × Portfolio :=
  match framing_context.get_initial_allocation (buildDataframe p.accounts)
      (p.accounts.map PAccount.toAccount) with
  | none => (Except.error AdvizeError.valueError, p)
  | some x0 =>
    let solution := solverCall p framing_context t solver x0
    if solution.success then
      (Except.ok (deriveTransactions (buildDataframe p.accounts) solution.x), p)
    else
      (Except.error (AdvizeError.resultError
        ("Cash allocation failed: " ++ solution.message)), p)

/-- Portfolio.allocate_cash: CashAllocationStrategy for taxable accounts only. -/
def allocate_cash (p : Portfolio) (t : Target) (solver : Solver) :
    Except AdvizeError (List Transaction) × Portfolio :=
  _optimize_allocation p ⟨some cashAllocationStrategy, none⟩ t solver

/-- Portfolio.tune: CashAllocationStrategy for taxable and
RebalanceAllocationStrategy for non-taxable accounts. -/
def tune (p : Portfolio) (t : Target) (solver : Solver) :
    Except AdvizeError (List Transaction) × Portfolio :=
  _optimize_allocation p ⟨some cashAllocationStrategy, some rebalanceAllocationStrategy⟩
    t solver

theorem optimize_allocation_cases (p : Portfolio) (ctx : Context) (t : Target)
    (solver : Solver) (x0 : List ℚ)
    (hx0 : ctx.get_initial_allocation (buildDataframe p.accounts)
      (p.accounts.map PAccount.toAccount) = some x0) :
    _optimize_allocation p ctx t solver =
      (if (solverCall p ctx t solver x0).success then
        (Except.ok (deriveTransactions (buildDataframe p.accounts)
          (solverCall p ctx t solver x0).x), p)
      else
        (Except.error (AdvizeError.resultError ("Cash allocation failed: " ++
          (solverCall p ctx t solver x0).message)), p)) := by
  rw [_optimize_allocation, hx0]

/-- C8: when the solver reports non-convergence, allocate_cash and tune raise
ResultError with the message "Cash allocation failed: " followed by the solver
diagnostic, return no transaction list, and leave the portfolio unchanged; when
the solver succeeds no error is raised and the transaction list derived from the
solution is returned; and the outcome depends only on the one solver invocation
actually made, so there is no automatic retry: two solvers agreeing on that single
call give identical results. -/
theorem claim_C8 (p : Portfolio) (t : Target) (solver solver2 : Solver)
    (x0c x0t : List ℚ)
    (hc : Context.get_initial_allocation ⟨some cashAllocationStrategy, none⟩
      (buildDataframe p.accounts) (p.accounts.map PAccount.toAccount) = some x0c)
    (ht : Context.get_initial_allocation ⟨some cashAllocationStrategy, some rebalanceAllocationStrategy⟩
      (buildDataframe p.accounts) (p.accounts.map PAccount.toAccount) = some x0t) :
    ((solverCall p ⟨some cashAllocationStrategy, none⟩ t solver x0c).success = false →
      allocate_cash p t solver =
        (Except.error (AdvizeError.resultError ("Cash allocation failed: " ++
          (solverCall p ⟨some cashAllocationStrategy, none⟩ t solver x0c).message)), p)) ∧
    ((solverCall p ⟨some cashAllocationStrategy, none⟩ t solver x0c).success = true →
      allocate_cash p t solver =
        (Except.ok (deriveTransactions (buildDataframe p.accounts)
          (solverCall p ⟨some cashAllocationStrategy, none⟩ t solver x0c).x), p)) ∧
    ((solverCall p ⟨some cashAllocationStrategy, some rebalanceAllocationStrategy⟩ t solver x0t).success = false →
      tune p t solver =
        (Except.error (AdvizeError.resultError ("Cash allocation failed: " ++
          (solverCall p ⟨some cashAllocationStrategy, some rebalanceAllocationStrategy⟩ t solver x0t).message)), p)) ∧
    ((solverCall p ⟨some cashAllocationStrategy, some rebalanceAllocationStrategy⟩ t solver x0t).success = true →
      tune p t solver =
        (Except.ok (deriveTransactions (buildDataframe p.accounts)
          (solverCall p ⟨some cashAllocationStrategy, some rebalanceAllocationStrategy⟩ t solver x0t).x), p)) ∧
    (solverCall p ⟨some cashAllocationStrategy, none⟩ t solver2 x0c = solverCall p ⟨some cashAllocationStrategy, none⟩ t solver x0c →
      allocate_cash p t solver2 = allocate_cash p t solver) ∧
    (solverCall p ⟨some cashAllocationStrategy, some rebalanceAllocationStrategy⟩ t solver2 x0t = solverCall p ⟨some cashAllocationStrategy, some rebalanceAllocationStrategy⟩ t solver x0t →
      tune p t solver2 = tune p t solver) := by
  have hC := optimize_allocation_cases p ⟨some cashAllocationStrategy, none⟩ t solver x0c hc
  have hT := optimize_allocation_cases p ⟨some cashAllocationStrategy, some rebalanceAllocationStrategy⟩ t solver x0t ht
  have hC2 := optimize_allocation_cases p ⟨some cashAllocationStrategy, none⟩ t solver2 x0c hc
  have hT2 := optimize_allocation_cases p ⟨some cashAllocationStrategy, some rebalanceAllocationStrategy⟩ t solver2 x0t ht
  refine ⟨?_, ?_, ?_, ?_, ?_, ?_⟩
  · intro h
    rw [allocate_cash, hC, if_neg (by simp [h])]
  · intro h
    rw [allocate_cash, hC, if_pos h]
  · intro h
    rw [tune, hT, if_neg (by simp [h])]
  · intro h
    rw [tune, hT, if_pos h]
  · intro hagree
    rw [allocate_cash, allocate_cash, hC, hC2, hagree]
  · intro hagree
    rw [tune, tune, hT, hT2, hagree]

/-- A one-account, one-holding, non-taxable test portfolio. -/
def ntPortfolio : Portfolio :=
  ⟨[⟨"INDIVIDUAL IRA", "Vanguard", false,
     [⟨"VNQ", AssetClass.REAL_ESTATE, "Vanguard Real Estate", 2000, 10⟩]⟩]⟩

/-- Witness for C8: a non-converging solver makes allocate_cash fail with the
diagnostic message and the portfolio intact, and a succeeding solver makes tune
return a transaction list. -/
theorem claim_C8_witness :
    allocate_cash ntPortfolio ⟨{AssetClass.REAL_ESTATE}, fun _ => 100⟩
      (fun _ _ _ _ => ⟨false, "Iteration limit exceeded", []⟩) =
      (Except.error (AdvizeError.resultError
        "Cash allocation failed: Iteration limit exceeded"), ntPortfolio) ∧
    tune ntPortfolio ⟨{AssetClass.REAL_ESTATE}, fun _ => 100⟩
      (fun _ _ _ _ => ⟨true, "Optimization terminated successfully", []⟩) =
      (Except.ok [], ntPortfolio) := by
  have h := claim_C8 ntPortfolio ⟨{AssetClass.REAL_ESTATE}, fun _ => 100⟩
    (fun _ _ _ _ => ⟨false, "Iteration limit exceeded", []⟩)
    (fun _ _ _ _ => ⟨false, "Iteration limit exceeded", []⟩)
    [0] [0] (by decide) (by decide)
  have h2 := claim_C8 ntPortfolio ⟨{AssetClass.REAL_ESTATE}, fun _ => 100⟩
    (fun _ _ _ _ => ⟨true, "Optimization terminated successfully", []⟩)
    (fun _ _ _ _ => ⟨true, "Optimization terminated successfully", []⟩)
    [0] [0] (by decide) (by decide)
  exact ⟨h.1 rfl, h2.2.2.2.1 rfl⟩

/-! ### Portfolio.execute -/

instance : Inhabited Investment := ⟨⟨"", AssetClass.CASH, "", 0, 0⟩⟩

instance : Inhabited PAccount := ⟨⟨"", "", false, []⟩⟩

/-- One assignment transact_map[t.account_name][t.fund_name] = t.num_shares on the
defaultdict-of-defaultdict, as a function update. -/
def transactStep (m : String → String → ℚ) (t : Transaction) : String → String → ℚ :=
  fun a f => if a = t.account_name ∧ f = t.fund_name then t.num_shares else m a f

/-- The transact_map built by Portfolio.execute: fold the assignments over the
transaction list, 0 (the defaultdict float default) where no key was written. -/
def buildTransactMap (ts : List Transaction) : String → String → ℚ :=
  ts.foldl transactStep (fun _ _ => 0)

/-- The double loop of Portfolio.execute: each holding of each account gains the
mapped delta for (account name, fund name). -/
def applyTransactions (m : String → String → ℚ) (accounts : List PAccount) :
    List PAccount :=
  accounts.map (fun accnt =>
    { accnt with holdings := accnt.holdings.map (fun holding =>
        { holding with num_shares :=
            holding.num_shares + m accnt.name holding.name }) })

/-- Portfolio.execute: build the transact map, apply it to the account list (the
original list when inplace, a deep copy otherwise), and return the pair (returned
portfolio, portfolio state of self after the call). -/
def Portfolio.execute (p : Portfolio) (transactions : List Transaction)
    (inplace : Bool) : Portfolio × Portfolio :=
  let account_list := applyTransactions (buildTransactMap transactions) p.accounts
  if inplace then (⟨account_list⟩, ⟨account_list⟩) else (⟨account_list⟩, p)

/-- The delta of the LAST transaction in the list keyed by (a, f), 0 when none
matches: the spec reading of the transact map. -/
def lastMatchDelta (ts : List Transaction) (a f : String) : ℚ :=
  match (ts.filter (fun u => decide (a = u.account_name ∧ f = u.fund_name))).getLast? with
  | none => 0
  | some u => u.num_shares

theorem getD_map_lt {α β : Type} [Inhabited α] [Inhabited β] (f : α → β)
    (l : List α) (i : Nat) (h : i < l.length) :
    (l.map f).getD i default = f (l.getD i default) := by
  induction l generalizing i with
  | nil => simp at h
  | cons x xs ih =>
    cases i with
    | zero => rfl
    | succ j => exact ih j (by simpa using h)

theorem foldl_transactStep (ts : List Transaction) (init : String → String → ℚ)
    (a f : String) :
    (ts.foldl transactStep init) a f =
      match (ts.filter (fun u =>
          decide (a = u.account_name ∧ f = u.fund_name))).getLast? with
      | none => init a f
      | some u => u.num_shares := by
  induction ts generalizing init with
  | nil => rfl
  | cons t rest ih =>
    rw [List.foldl_cons, ih (transactStep init t)]
    by_cases hm : a = t.account_name ∧ f = t.fund_name
    · have hf : (t :: rest).filter (fun u =>
          decide (a = u.account_name ∧ f = u.fund_name)) =
          t :: rest.filter (fun u =>
            decide (a = u.account_name ∧ f = u.fund_name)) :=
        List.filter_cons_of_pos (by simpa using hm)
      rw [hf]
      cases hfr : rest.filter (fun u =>
          decide (a = u.account_name ∧ f = u.fund_name)) with
      | nil =>
        show transactStep init t a f = _
        simp only [transactStep, if_pos hm]
        rfl
      | cons u lrest =>
        rw [List.getLast?_cons_cons]
        cases hg : (u :: lrest).getLast? with
        | none => simp at hg
        | some v => rfl
    · have hf : (t :: rest).filter (fun u =>
          decide (a = u.account_name ∧ f = u.fund_name)) =
          rest.filter (fun u =>
            decide (a = u.account_name ∧ f = u.fund_name)) :=
        List.filter_cons_of_neg (by simpa using hm)
      rw [hf]
      cases hfr : (rest.filter (fun u =>
          decide (a = u.account_name ∧ f = u.fund_name))).getLast? with
      | none =>
        show transactStep init t a f = init a f
        simp only [transactStep, if_neg hm]
      | some u => rfl

theorem buildTransactMap_eq_lastMatchDelta (ts : List Transaction) (a f : String) :
    buildTransactMap ts a f = lastMatchDelta ts a f :=
  foldl_transactStep ts (fun _ _ => 0) a f

theorem applyTransactions_holdings_length (m : String → String → ℚ)
    (accounts : List PAccount) (ai : Nat) :
    ((applyTransactions m accounts).getD ai default).holdings.length =
      (accounts.getD ai default).holdings.length := by
  induction accounts generalizing ai with
  | nil => rfl
  | cons a rest ih =>
    cases ai with
    | zero => exact List.length_map _ _
    | succ j => exact ih j

theorem holdings_map_shares (n : String) (m : String → String → ℚ)
    (l : List Investment) (hi : Nat) (h : hi < l.length) :
    ((l.map (fun holding => ({ holding with
        num_shares := holding.num_shares + m n holding.name } : Investment))).getD
          hi default).num_shares =
      (l.getD hi default).num_shares + m n (l.getD hi default).name := by
  induction l generalizing hi with
  | nil => simp at h
  | cons x xs ih =>
    cases hi with
    | zero => rfl
    | succ j => exact ih j (by simpa using h)

theorem applyTransactions_shares (m : String → String → ℚ)
    (accounts : List PAccount) (ai hi : Nat) (ha : ai < accounts.length)
    (hh : hi < (accounts.getD ai default).holdings.length) :
    (((applyTransactions m accounts).getD ai default).holdings.getD hi
        default).num_shares =
      ((accounts.getD ai default).holdings.getD hi default).num_shares +
        m (accounts.getD ai default).name
          ((accounts.getD ai default).holdings.getD hi default).name := by
  induction accounts generalizing ai with
  | nil => simp at ha
  | cons a rest ih =>
    cases ai with
    | zero => exact holdings_map_shares a.name m a.holdings hi hh
    | succ j => exact ih j (by simpa using ha) hh

/-- C9: with inplace = false, execute leaves the original portfolio unchanged and
returns a fresh portfolio in which every holding gains exactly the delta of the
last transaction keyed by its (account name, fund name) pair (0 when no
transaction matches, the last delta — not the sum — when several match); a
transaction whose (account name, fund name) matches no holding of the portfolio
has no effect at all; and writing two transactions for the same key keeps only the
second delta in the transact map. -/
theorem claim_C9 (p : Portfolio) (ts : List Transaction) (t0 : Transaction)
    (ai hi : Nat) (ha : ai < p.accounts.length)
    (hh : hi < (p.accounts.getD ai default).holdings.length)
    (h0 : ∀ a ∈ p.accounts, ∀ hld ∈ a.holdings,
      ¬(a.name = t0.account_name ∧ hld.name = t0.fund_name)) :
    (Portfolio.execute p ts false).2 = p ∧
    (Portfolio.execute p ts false).1.accounts.length = p.accounts.length ∧
    ((Portfolio.execute p ts false).1.accounts.getD ai default).holdings.length =
      (p.accounts.getD ai default).holdings.length ∧
    (((Portfolio.execute p ts false).1.accounts.getD ai default).holdings.getD hi
        default).num_shares =
      ((p.accounts.getD ai default).holdings.getD hi default).num_shares +
        lastMatchDelta ts (p.accounts.getD ai default).name
          ((p.accounts.getD ai default).holdings.getD hi default).name ∧
    (∀ inplace, Portfolio.execute p (ts ++ [t0]) inplace =
      Portfolio.execute p ts inplace) ∧
    (∀ (l : List Transaction) (t1 t2 : Transaction),
      t1.account_name = t2.account_name → t1.fund_name = t2.fund_name →
      buildTransactMap (l ++ [t1, t2]) t2.account_name t2.fund_name =
        t2.num_shares) := by
  have hmap : ∀ a ∈ p.accounts, ∀ hld ∈ a.holdings,
      buildTransactMap (ts ++ [t0]) a.name hld.name =
        buildTransactMap ts a.name hld.name := by
    intro a hain hld hhin
    show ((ts ++ [t0]).foldl transactStep (fun _ _ => 0)) a.name hld.name = _
    rw [List.foldl_append]
    show transactStep (ts.foldl transactStep (fun _ _ => 0)) t0 a.name hld.name = _
    simp only [transactStep, if_neg (h0 a hain hld hhin)]
    rfl
  refine ⟨rfl, ?_, ?_, ?_, ?_, ?_⟩
  · show (applyTransactions (buildTransactMap ts) p.accounts).length = _
    rw [applyTransactions, List.length_map]
  · exact applyTransactions_holdings_length (buildTransactMap ts) p.accounts ai
  · rw [show (((Portfolio.execute p ts false).1.accounts.getD ai
        default).holdings.getD hi default).num_shares =
        (((applyTransactions (buildTransactMap ts) p.accounts).getD ai
          default).holdings.getD hi default).num_shares from rfl,
      applyTransactions_shares (buildTransactMap ts) p.accounts ai hi ha hh,
      buildTransactMap_eq_lastMatchDelta]
  · intro inplace
    have happ : applyTransactions (buildTransactMap (ts ++ [t0])) p.accounts =
        applyTransactions (buildTransactMap ts) p.accounts := by
      rw [applyTransactions, applyTransactions]
      refine List.map_congr_left ?_
      intro a hain
      have hh2 : a.holdings.map (fun holding =>
          { holding with num_shares := holding.num_shares +
              buildTransactMap (ts ++ [t0]) a.name holding.name }) =
          a.holdings.map (fun holding =>
            { holding with num_shares := holding.num_shares +
                buildTransactMap ts a.name holding.name }) := by
        refine List.map_congr_left ?_
        intro hld hhin
        rw [hmap a hain hld hhin]
      rw [hh2]
    simp only [Portfolio.execute, happ]
  · intro l t1 t2 h1 h2
    show ((l ++ [t1, t2]).foldl transactStep (fun _ _ => 0)) t2.account_name
        t2.fund_name = t2.num_shares
    rw [List.foldl_append]
    show transactStep (transactStep (l.foldl transactStep (fun _ _ => 0)) t1) t2
        t2.account_name t2.fund_name = t2.num_shares
    simp [transactStep]

/-- Two transactions targeting the same (account, fund) key: the second wins. -/
def execTxs : List Transaction :=
  [⟨"Fidelity", "Joint WROS", "Money Market", 5⟩,
   ⟨"Fidelity", "Joint WROS", "Money Market", 7⟩]

/-- Witness for C9: executing two duplicate-key transactions leaves the original
portfolio untouched, moves the money-market holding from 5000 to 5000 + 7 shares
(the last delta, not 5 + 7), and an unmatched transaction changes nothing. -/
theorem claim_C9_witness :
    (Portfolio.execute ⟨wAccounts⟩ execTxs false).2 = ⟨wAccounts⟩ ∧
    ((((Portfolio.execute ⟨wAccounts⟩ execTxs false).1.accounts.getD 0
        default).holdings.getD 1 default).num_shares = 5000 + 7) ∧
    (Portfolio.execute ⟨wAccounts⟩ (execTxs ++ [⟨"X", "Nobody", "Nothing", 3⟩])
        false = Portfolio.execute ⟨wAccounts⟩ execTxs false) := by
  have h := claim_C9 ⟨wAccounts⟩ execTxs ⟨"X", "Nobody", "Nothing", 3⟩ 0 1
    (by decide) (by decide) (by decide)
  refine ⟨h.1, ?_, h.2.2.2.2.1 false⟩
  rw [h.2.2.2.1]
  have e1 : (((Portfolio.mk wAccounts).accounts.getD 0 default).holdings.getD 1
      default).num_shares = 5000 := by decide
  have e2 : lastMatchDelta execTxs ((Portfolio.mk wAccounts).accounts.getD 0
      default).name (((Portfolio.mk wAccounts).accounts.getD 0
      default).holdings.getD 1 default).name = 7 := by decide
  rw [e1, e2]

end Advizer
